import Mathlib

/-!
Verification of the FlowCal gate module (`fc/gate.py`).

The module provides flow-cytometry gate functions.  Each gate takes an NxD
numpy array `data` (one row per event) and a `gate_fraction`, and returns a
boolean mask of length N (True = event kept) together with a gate contour.

We embed the three statistical gates `circular_median`, `whitening` and
`density` shallowly:

* numpy float arithmetic on the measured channels is embedded as exact `ℚ`
  arithmetic where the source only adds/multiplies/compares, and as `ℝ`
  where the source takes square roots, trigonometric functions or
  exponentials;
* Python's stable `sorted(range(N), key=f)` is embedded as a sort under
  the lexicographic order on `(f k, k)`: a stable sort by `f` alone and
  any correct sort under this total antisymmetric order agree on every
  input, because ties under `f` are resolved by original position, which
  is exactly the second lexicographic component.  Where the source sorts
  by `d = sqrt(q)` we sort by `q` itself: `sqrt` is strictly monotone on
  nonnegative arguments, so the induced order (ties included) and hence
  the sorted index list are identical;
* exceptions are embedded as `Except GateError`;
* `np.linalg.eig` (LAPACK) and `matplotlib._cntr.Cntr.trace` (C code) are
  external libraries, not part of this repository; their outputs enter the
  embedded functions as parameters (`w`, `v`, `traceFn`).
-/

/-- The distinct failure modes of the gate functions: the two explicit
`ValueError` validations, an uncaught `IndexError` (e.g. `[0][0]` on an empty
index array, or `m[1]` / `data[:,1]` on single-column data), the numpy shape
mismatch `ValueError` raised by `c.dot(...)` on single-column data in
`whitening`, and the `Exception('contour error: unrecognized path code')`. -/
inductive GateError : Type
  | validation : String → GateError
  | indexError : GateError
  | shapeError : GateError
  | contourError : GateError
deriving DecidableEq

/-- A numpy array as passed to a gate: rank 1 (`len(data.shape) < 2`) or
rank 2 (a list of rows).  Higher ranks do not represent event tables. -/
def NDArray : Type := List ℚ ⊕ List (List ℚ)

/-- `np.median` of a 1-D array: sort ascending; for odd length the middle
element, for even length the mean of the two middle elements. -/
def npMedian (l : List ℚ) : ℚ :=
  if l.length % 2 = 1 then (l.insertionSort (· ≤ ·)).getD (l.length / 2) 0
  else ((l.insertionSort (· ≤ ·)).getD (l.length / 2 - 1) 0 +
        (l.insertionSort (· ≤ ·)).getD (l.length / 2) 0) / 2

/-- `n = int(np.ceil(gate_fraction*float(data.shape[0])))`. -/
def nKeep (g : ℚ) (N : ℕ) : ℕ := (⌈g * (N : ℚ)⌉).toNat

/-- Column `j` of the event table, `data[:, j]`. -/
def col (data : List (List ℚ)) (j : ℕ) : List ℚ := data.filterMap (fun r => r[j]?)

/-- The number of columns `D` of a (rectangular) rank-2 array. -/
def ncols (data : List (List ℚ)) : ℕ := (data.headD []).length

/-- The order realizing Python's stable ascending
`sorted(xrange(N), key=key)`: Python's sort is stable, so ties under `key`
keep their original (ascending-index) order, which is exactly a total sort
by the lexicographic pair `(key k, k)`.  Any correct sort under this total
antisymmetric order returns the same list. -/
def lexLe {α : Type} [LinearOrder α] (key : ℕ → α) (a b : ℕ) : Prop :=
  key a < key b ∨ (key a = key b ∧ a ≤ b)

instance lexLeDec {α : Type} [LinearOrder α] (key : ℕ → α) :
    DecidableRel (lexLe key) :=
  fun _ _ => inferInstanceAs (Decidable (_ ∨ _))

/-- Likewise for `sorted(xrange(N), key=key, reverse=True)`: descending in
`key`, ties still kept in ascending index order (`reverse=True` reverses
the comparison, not the output, so stability is preserved). -/
def lexGe {α : Type} [LinearOrder α] (key : ℕ → α) (a b : ℕ) : Prop :=
  key b < key a ∨ (key a = key b ∧ a ≤ b)

instance lexGeDec {α : Type} [LinearOrder α] (key : ℕ → α) :
    DecidableRel (lexGe key) :=
  fun _ _ => inferInstanceAs (Decidable (_ ∨ _))

/-! ### circular_median -/

/-- `m = np.median(data[:,0:2], 0)`: component `j` of the per-column median
of the first `min 2 D` columns. -/
def cmM (data : List (List ℚ)) (j : ℕ) : ℚ := npMedian (col data j)

/-- Squared Euclidean distance of event `k` to the median point over the
sliced columns `data[:,0:2]`.  The source computes
`d = np.sqrt(np.sum(np.square(m-data[:,0:2]),1))` and uses `d` only as a
sort key and (in `cmR`) under the contour radius; we keep the exact square
`dsq` and take `Real.sqrt` where the value of `d` itself is used. -/
def cmDsq (data : List (List ℚ)) (k : ℕ) : ℚ :=
  ((List.range (min 2 (ncols data))).map
    (fun j => (cmM data j - (data.getD k []).getD j 0) ^ 2)).sum

/-- The distance array `d` itself: `d[k] = sqrt(dsq k)`. -/
noncomputable def cmDist (data : List (List ℚ)) (k : ℕ) : ℝ :=
  Real.sqrt (cmDsq data k)

/-- `idx = sorted(xrange(d.shape[0]), key=lambda k: d[k])`.  Sorting by
`dsq` equals sorting by `d = sqrt(dsq)`: `sqrt` is strictly monotone on
nonnegatives, so both keys induce the same lexicographic order on
`(key k, k)` and the sorted index list is the same. -/
def cmIdx (data : List (List ℚ)) : List ℕ :=
  (List.range data.length).insertionSort (lexLe (cmDsq data))

/-- `mask = np.zeros(N,dtype=bool); mask[idx[:n]] = True`. -/
def cmMask (data : List (List ℚ)) (g : ℚ) : List Bool :=
  (List.range data.length).map
    (fun k => decide (k ∈ (cmIdx data).take (nKeep g data.length)))

/-- `r = d[idx[n-1]]`: the distance of the boundary (n-th closest) event. -/
noncomputable def cmR (data : List (List ℚ)) (g : ℚ) : ℝ :=
  Real.sqrt (cmDsq data ((cmIdx data).getD (nKeep g data.length - 1) 0))

/-- The 100 circle vertices: `theta = np.arange(0, 2*pi, 2*pi/100)` gives the
angles `2*pi*k/100` for `k < 100`, and vertex `k` is
`(m[0] + r*cos t, m[1] + r*sin t)`. -/
noncomputable def cmPts (data : List (List ℚ)) (g : ℚ) : List (ℝ × ℝ) :=
  (List.range 100).map (fun k : ℕ =>
    ((cmM data 0 : ℝ) + cmR data g * Real.cos (2 * Real.pi * (k : ℝ) / 100),
     (cmM data 1 : ℝ) + cmR data g * Real.sin (2 * Real.pi * (k : ℝ) / 100)))

/-- The closed contour: `x.append(x[0]); y.append(y[0])`. -/
noncomputable def cmContour (data : List (List ℚ)) (g : ℚ) : List (ℝ × ℝ) :=
  cmPts data g ++ (cmPts data g).take 1

/-- `circular_median(data, gate_fraction)`.  The two validation checks come
first; with a single-column rank-2 array (`D = 1`) both checks pass, the
mask is computed, and the later read `m[1]` raises an uncaught
`IndexError`, so the call returns no mask; we model the whole call by its
result. -/
noncomputable def circular_median (data : NDArray) (g : ℚ) :
    Except GateError (List Bool × List (ℝ × ℝ)) :=
  match data with
  | .inl _ => .error (.validation "must specify at least 2 dimensions (FSC and SSC)")
  | .inr rows =>
    if rows.length < 2 then .error (.validation "data must have more than 1 event")
    else if 2 ≤ ncols rows then .ok (cmMask rows g, cmContour rows g)
    else .error .indexError

/-! ### whitening -/

/-- `X = m - data[:,0:2]` (median-centered rows, note the sign). -/
def whX (data : List (List ℚ)) : List (ℚ × ℚ) :=
  data.map (fun r => (cmM data 0 - r.getD 0 0, cmM data 1 - r.getD 1 0))

/-- `X` with entries viewed in `ℝ`. -/
def whXr (data : List (List ℚ)) : List (ℝ × ℝ) :=
  (whX data).map (fun p => ((p.1 : ℝ), (p.2 : ℝ)))

/-- The scatter matrix `L.T.dot(L) / N` of a list of 2-D rows. -/
noncomputable def scatter2 (l : List (ℝ × ℝ)) (N : ℕ) : Matrix (Fin 2) (Fin 2) ℝ :=
  (N : ℝ)⁻¹ • Matrix.of
    ![![(l.map (fun p => p.1 ^ 2)).sum, (l.map (fun p => p.1 * p.2)).sum],
      ![(l.map (fun p => p.1 * p.2)).sum, (l.map (fun p => p.2 ^ 2)).sum]]

/-- `S = X.T.dot(X) / float(data.shape[0])`. -/
noncomputable def whS (data : List (List ℚ)) : Matrix (Fin 2) (Fin 2) ℝ :=
  scatter2 (whXr data) data.length

/-- The forward whitening transform applied to one centered row:
`row.dot(v).dot(np.diag(1.0/np.sqrt(w)))` where `(w, v)` is the output of
`np.linalg.eig(S)`. -/
noncomputable def whFwd (w : Fin 2 → ℝ) (v : Matrix (Fin 2) (Fin 2) ℝ)
    (p : ℝ × ℝ) : ℝ × ℝ :=
  ((p.1 * v 0 0 + p.2 * v 1 0) * (Real.sqrt (w 0))⁻¹,
   (p.1 * v 0 1 + p.2 * v 1 1) * (Real.sqrt (w 1))⁻¹)

/-- `transformed_data = X.dot(v).dot(np.diag(1.0/np.sqrt(w)))`. -/
noncomputable def whT (data : List (List ℚ)) (w : Fin 2 → ℝ)
    (v : Matrix (Fin 2) (Fin 2) ℝ) : List (ℝ × ℝ) :=
  (whXr data).map (whFwd w v)

/-- Squared distance of transformed event `k` to the origin; the source
sorts by `d = np.sqrt(np.sum(np.square(transformed_data),1))`. -/
noncomputable def whDsq (data : List (List ℚ)) (w : Fin 2 → ℝ)
    (v : Matrix (Fin 2) (Fin 2) ℝ) (k : ℕ) : ℝ :=
  ((whT data w v).getD k (0, 0)).1 ^ 2 + ((whT data w v).getD k (0, 0)).2 ^ 2

/-- `idx = sorted(xrange(d.shape[0]), key=lambda k: d[k])` in `whitening`. -/
noncomputable def whIdx (data : List (List ℚ)) (w : Fin 2 → ℝ)
    (v : Matrix (Fin 2) (Fin 2) ℝ) : List ℕ :=
  (List.range data.length).insertionSort (lexLe (whDsq data w v))

/-- `mask = np.zeros(N,dtype=bool); mask[idx[:n]] = True` in `whitening`. -/
noncomputable def whMask (data : List (List ℚ)) (g : ℚ) (w : Fin 2 → ℝ)
    (v : Matrix (Fin 2) (Fin 2) ℝ) : List Bool :=
  (List.range data.length).map
    (fun k => decide (k ∈ (whIdx data w v).take (nKeep g data.length)))

/-- `r = d[idx[n-1]]` in `whitening` (an eigenspace distance). -/
noncomputable def whR (data : List (List ℚ)) (g : ℚ) (w : Fin 2 → ℝ)
    (v : Matrix (Fin 2) (Fin 2) ℝ) : ℝ :=
  Real.sqrt (whDsq data w v ((whIdx data w v).getD (nKeep g data.length - 1) 0))

/-- The 100 eigenspace circle vertices `(r*cos t, r*sin t)`. -/
noncomputable def whCirclePts (data : List (List ℚ)) (g : ℚ) (w : Fin 2 → ℝ)
    (v : Matrix (Fin 2) (Fin 2) ℝ) : List (ℝ × ℝ) :=
  (List.range 100).map (fun k : ℕ =>
    (whR data g w v * Real.cos (2 * Real.pi * (k : ℝ) / 100),
     whR data g w v * Real.sin (2 * Real.pi * (k : ℝ) / 100)))

/-- The closed eigenspace circle `c`: `x.append(x[0]); y.append(y[0])`. -/
noncomputable def whCircle (data : List (List ℚ)) (g : ℚ) (w : Fin 2 → ℝ)
    (v : Matrix (Fin 2) (Fin 2) ℝ) : List (ℝ × ℝ) :=
  whCirclePts data g w v ++ (whCirclePts data g w v).take 1

/-- The back-mapping of one circle vertex:
`m + c.dot(np.diag(np.sqrt(w))).dot(v.T)` applied to the row `c`. -/
noncomputable def whBack (w : Fin 2 → ℝ) (v : Matrix (Fin 2) (Fin 2) ℝ)
    (m : ℝ × ℝ) (c : ℝ × ℝ) : ℝ × ℝ :=
  (m.1 + (Real.sqrt (w 0) * c.1 * v 0 0 + Real.sqrt (w 1) * c.2 * v 0 1),
   m.2 + (Real.sqrt (w 0) * c.1 * v 1 0 + Real.sqrt (w 1) * c.2 * v 1 1))

/-- `cntr = m + c.dot(np.diag(np.sqrt(w))).dot(v.T)`. -/
noncomputable def whContour (data : List (List ℚ)) (g : ℚ) (w : Fin 2 → ℝ)
    (v : Matrix (Fin 2) (Fin 2) ℝ) : List (ℝ × ℝ) :=
  (whCircle data g w v).map (whBack w v ((cmM data 0 : ℝ), (cmM data 1 : ℝ)))

/-- `whitening(data, gate_fraction)`, with the eigendecomposition output
`(w, v)` of `np.linalg.eig(S)` (an external LAPACK routine) passed as a
parameter.  With a single-column rank-2 array both validations pass, the
mask is computed, and `c.dot(np.diag(np.sqrt(w)))` then raises a numpy
shape-mismatch `ValueError` (a (101,2) times (1,1) product). -/
noncomputable def whitening (data : NDArray) (g : ℚ) (w : Fin 2 → ℝ)
    (v : Matrix (Fin 2) (Fin 2) ℝ) :
    Except GateError (List Bool × List (ℝ × ℝ)) :=
  match data with
  | .inl _ => .error (.validation "must specify at least 2 dimensions (FSC and SSC)")
  | .inr rows =>
    if rows.length < 2 then .error (.validation "data must have more than 1 event")
    else if 2 ≤ ncols rows then .ok (whMask rows g w v, whContour rows g w v)
    else .error .shapeError

/-! ### density -/

/-- The bin index of a channel value for the histogram with edges
`np.arange(1025)-0.5`: values in `[k-0.5, k+0.5)` fall in bin `k`, the last
bin `[1022.5, 1023.5]` is closed, values outside all edges are not
counted. -/
def binOf (x : ℚ) : Option ℕ :=
  if -(1/2) ≤ x ∧ x ≤ 1023 + 1/2 then some (min 1023 (⌊x + 1/2⌋).toNat) else none

/-- `C, xe, ye = np.histogram2d(data[:,0], data[:,1], bins=e)`: the count of
events whose two channel values fall in bins `i` and `j` respectively. -/
def histC (data : List (List ℚ)) (i j : ℕ) : ℕ :=
  data.countP (fun r => decide (binOf (r.getD 0 0) = some i ∧ binOf (r.getD 1 0) = some j))

/-- `lw = int(truncate * sigma + 0.5)` with `truncate=6.0`: the Gaussian
kernel radius used by `scipy.ndimage.filters.gaussian_filter`. -/
def gaussR (sigma : ℚ) : ℕ := (⌊6 * sigma + 1/2⌋).toNat

/-- The unnormalized 1-D Gaussian kernel weight at offset `t`:
`exp(-0.5/sigma^2 * t^2)` for `|t| <= lw`, `0` beyond the truncation. -/
noncomputable def gaussW (sigma : ℚ) (t : ℤ) : ℝ :=
  if t.natAbs ≤ gaussR sigma then Real.exp (-(t : ℝ) ^ 2 / (2 * (sigma : ℝ) ^ 2)) else 0

/-- The kernel normalizer (scipy divides the weights by their sum). -/
noncomputable def gaussZ (sigma : ℚ) : ℝ :=
  ∑ t in Finset.Icc (-(gaussR sigma : ℤ)) (gaussR sigma : ℤ), gaussW sigma t

/-- `bC = scipy.ndimage.filters.gaussian_filter(C, sigma, order=0,
mode='constant', cval=0.0, truncate=6.0)`: separable correlation of `C`
with the normalized 1-D kernel along both axes, out-of-grid input read as
`0`. -/
noncomputable def blurC (data : List (List ℚ)) (sigma : ℚ) (i j : ℕ) : ℝ :=
  ∑ p in Finset.range 1024, ∑ q in Finset.range 1024,
    (histC data p q : ℝ) * (gaussW sigma ((i : ℤ) - p) / gaussZ sigma) *
      (gaussW sigma ((j : ℤ) - q) / gaussZ sigma)

/-- `np.sum(bC)`. -/
noncomputable def probT (data : List (List ℚ)) (sigma : ℚ) : ℝ :=
  ∑ i in Finset.range 1024, ∑ j in Finset.range 1024, blurC data sigma i j

/-- `D = bC / np.sum(bC)`. -/
noncomputable def probD (data : List (List ℚ)) (sigma : ℚ) (i j : ℕ) : ℝ :=
  blurC data sigma i j / probT data sigma

/-- `vD = D.ravel()`: the pmf at linear (row-major) bin index `l`. -/
noncomputable def densVD (data : List (List ℚ)) (sigma : ℚ) (l : ℕ) : ℝ :=
  probD data sigma (l / 1024) (l % 1024)

/-- `vC = C.ravel()`: the raw count at linear bin index `l`. -/
def densVC (data : List (List ℚ)) (l : ℕ) : ℕ := histC data (l / 1024) (l % 1024)

/-- `sidx = sorted(xrange(len(vD)), key=lambda idx: vD[idx], reverse=True)`:
stable descending sort, so ties in `vD` keep ascending linear index. -/
noncomputable def densSidx (data : List (List ℚ)) (sigma : ℚ) : List ℕ :=
  (List.range (1024 * 1024)).insertionSort (lexGe (densVD data sigma))

/-- `np.cumsum`. -/
def cumsum : List ℕ → List ℕ
  | [] => []
  | a :: t => a :: (cumsum t).map (a + ·)

/-- `Nidx = np.nonzero(csvC>=n)[0][0]`: the first position where the
cumulative sorted raw counts reach `n`; `none` models the uncaught
`IndexError` raised by `[0]` on an empty result. -/
noncomputable def densNidx? (data : List (List ℚ)) (sigma g : ℚ) : Option ℕ :=
  (cumsum ((densSidx data sigma).map (densVC data))).findIdx?
    (fun c => decide (nKeep g data.length ≤ c))

/-- `fsc,ssc = np.unravel_index(sidx[:(Nidx+1)], C.shape);
accepted_points = set(zip(fsc,ssc))` (kept as a list; `sidx` has no
duplicates so neither has this list). -/
noncomputable def densAccepted (data : List (List ℚ)) (sigma : ℚ) (Nidx : ℕ) :
    List (ℕ × ℕ) :=
  ((densSidx data sigma).take (Nidx + 1)).map (fun l => (l / 1024, l % 1024))

/-- `mask = np.array([tuple(event) in accepted_points for event in
data[:,0:2]])`: the raw value pair of the event, a pair of floats, is
tested for equality against the accepted integer index pairs. -/
noncomputable def densMask (data : List (List ℚ)) (sigma : ℚ) (Nidx : ℕ) :
    List Bool :=
  data.map (fun r => decide (∃ p ∈ densAccepted data sigma Nidx,
    r.getD 0 0 = (p.1 : ℚ) ∧ r.getD 1 0 = (p.2 : ℚ)))

/-- The loop over `trace`'s output: `t` holds `num_cntrs` vertex arrays
followed by `num_cntrs` code arrays; we model the paired halves.  A code
other than `1` and `2` raises
`Exception('contour error: unrecognized path code')`; otherwise every
vertex array is appended to the contour list. -/
def buildContours : List (List (ℚ × ℚ) × List ℤ) →
    Except GateError (List (List (ℚ × ℚ)))
  | [] => .ok []
  | (vs, codes) :: rest =>
    if codes.all (fun c => c == 1 || c == 2) then
      match buildContours rest with
      | .ok cs => .ok (vs :: cs)
      | .error e => .error e
    else .error .contourError

/-- `density(data, sigma, gate_fraction)`, with the external contour tracer
`matplotlib._cntr.Cntr(x,y,D).trace` passed as the parameter `traceFn`
(paired vertex/code arrays at a given iso-level).  With a single-column
rank-2 array both validations pass and `data[:,1]` then raises an uncaught
`IndexError` at the histogram step. -/
noncomputable def density (data : NDArray) (sigma g : ℚ)
    (traceFn : ℝ → List (List (ℚ × ℚ) × List ℤ)) :
    Except GateError (List Bool × List (List (ℚ × ℚ))) :=
  match data with
  | .inl _ => .error (.validation "must specify at least 2 dimensions (FSC and SSC)")
  | .inr rows =>
    if rows.length < 2 then .error (.validation "data must have more than 1 event")
    else if 2 ≤ ncols rows then
      match densNidx? rows sigma g with
      | none => .error .indexError
      | some Nidx =>
        match buildContours
            (traceFn (densVD rows sigma ((densSidx rows sigma).getD Nidx 0))) with
        | .ok cs => .ok (densMask rows sigma Nidx, cs)
        | .error e => .error e
    else .error .indexError

/-! ### Concrete example tables used in the verification -/

/-- Ten events with channel-1 values `0..9` and channel-2 constant `0`. -/
def exMedianGrid : List (List ℚ) :=
  [[0, 0], [1, 0], [2, 0], [3, 0], [4, 0], [5, 0], [6, 0], [7, 0], [8, 0], [9, 0]]

/-- Eight events whose median-centered scatter matrix is `diag(1, 4)`. -/
def exWhite : List (List ℚ) :=
  [[-2, 0], [2, 0], [0, -4], [0, 4], [0, 0], [0, 0], [0, 0], [0, 0]]

/-- Two events falling in histogram bin `(3, 0)`, one of them with a
non-integer channel value. -/
def exDens : List (List ℚ) := [[3, 0], [27/10, 0]]

/-- Two events entirely outside the binned range `[0, 1023]`. -/
def exOut : List (List ℚ) := [[2000, 2000], [2000, 2000]]

/-- Two integer-valued events, both in histogram bin `(3, 0)`. -/
def exInt : List (List ℚ) := [[3, 0], [3, 0]]

/-! ### Generic facts about the embedded stable sort -/

theorem sortIdx_perm (N : ℕ) (r : ℕ → ℕ → Prop) [DecidableRel r] :
    ((List.range N).insertionSort r).Perm (List.range N) :=
  List.perm_insertionSort r (List.range N)

theorem sortIdx_nodup (N : ℕ) (r : ℕ → ℕ → Prop) [DecidableRel r] :
    ((List.range N).insertionSort r).Nodup :=
  (List.perm_insertionSort r (List.range N)).nodup_iff.mpr (List.nodup_range N)

theorem sortIdx_mem (N : ℕ) (r : ℕ → ℕ → Prop) [DecidableRel r] (k : ℕ) :
    k ∈ (List.range N).insertionSort r ↔ k < N := by
  rw [(List.perm_insertionSort r (List.range N)).mem_iff, List.mem_range]

theorem sortIdx_length (N : ℕ) (r : ℕ → ℕ → Prop) [DecidableRel r] :
    ((List.range N).insertionSort r).length = N := by
  rw [(List.perm_insertionSort r (List.range N)).length_eq, List.length_range]

theorem sortIdx_pairwise (N : ℕ) (r : ℕ → ℕ → Prop) [DecidableRel r]
    (htot : ∀ a b, r a b ∨ r b a) (htr : ∀ a b c, r a b → r b c → r a c) :
    ((List.range N).insertionSort r).Pairwise r := by
  haveI : IsTotal ℕ r := ⟨htot⟩
  haveI : IsTrans ℕ r := ⟨htr⟩
  exact List.sorted_insertionSort r (List.range N)

/-- In a list sorted under `r`, an element that no other member precedes
(`r y x` fails for every other `y`) is the head. -/
theorem head?_eq_of_pairwise_first {r : ℕ → ℕ → Prop} {L : List ℕ} {x : ℕ}
    (hp : L.Pairwise r) (hx : x ∈ L)
    (hfirst : ∀ y ∈ L, y ≠ x → ¬ r y x) : L.head? = some x := by
  cases L with
  | nil => cases hx
  | cons a tl =>
    by_cases hax : a = x
    · simp [hax]
    · exfalso
      have hxtl : x ∈ tl := by
        rcases List.mem_cons.mp hx with h | h
        · exact absurd h.symm hax
        · exact h
      exact hfirst a (List.mem_cons_self a tl) hax
        ((List.pairwise_cons.mp hp).1 x hxtl)

/-- Membership in the first `n` entries of a sorted duplicate-free list is
exactly having fewer than `n` strict predecessors. -/
theorem mem_take_iff_countP_lt {r : ℕ → ℕ → Prop} [DecidableRel r]
    (hanti : ∀ a b, r a b → r b a → a = b)
    {L : List ℕ} (hp : L.Pairwise r) (hnd : L.Nodup)
    {k : ℕ} (hk : k ∈ L) (n : ℕ) :
    k ∈ L.take n ↔ L.countP (fun j => decide (r j k ∧ j ≠ k)) < n := by
  induction L generalizing n with
  | nil => cases hk
  | cons a tl ih =>
    have hpa := List.pairwise_cons.mp hp
    have hnda := List.nodup_cons.mp hnd
    by_cases hak : a = k
    · subst hak
      have h0 : (a :: tl).countP (fun j => decide (r j a ∧ j ≠ a)) = 0 := by
        rw [List.countP_eq_zero]
        intro j hj
        simp only [decide_eq_true_eq, not_and, ne_eq, not_not]
        intro hja
        rcases List.mem_cons.mp hj with rfl | hjtl
        · rfl
        · exact hanti j a hja (hpa.1 j hjtl)
      rw [h0]
      cases n with
      | zero => simp
      | succ m => simp [List.take_succ_cons]
    · have hktl : k ∈ tl := by
        rcases List.mem_cons.mp hk with h | h
        · exact absurd h.symm hak
        · exact h
      have hcount : (a :: tl).countP (fun j => decide (r j k ∧ j ≠ k)) =
          tl.countP (fun j => decide (r j k ∧ j ≠ k)) + 1 := by
        rw [List.countP_cons]
        have hfa : (decide (r a k ∧ a ≠ k) : Bool) = true := by
          simp only [decide_eq_true_eq]
          exact ⟨hpa.1 k hktl, hak⟩
        rw [hfa]
        simp
      rw [hcount]
      cases n with
      | zero => simp
      | succ m =>
        rw [List.take_succ_cons, List.mem_cons]
        have hih := ih hpa.2 hnda.2 hktl m
        constructor
        · rintro (h | h)
          · exact absurd h.symm hak
          · have := hih.mp h
            omega
        · intro h
          exact Or.inr (hih.mpr (by omega))

/-- In a duplicate-free list, the members lying in its own length-`n`
prefix are counted exactly by the prefix length. -/
theorem countP_prefix_eq_length (idx : List ℕ) (n : ℕ) (hnd : idx.Nodup) :
    idx.countP (fun k => decide (k ∈ idx.take n)) = (idx.take n).length := by
  induction idx generalizing n with
  | nil => simp
  | cons a tl ih =>
    have hnda := List.nodup_cons.mp hnd
    cases n with
    | zero => simp
    | succ m =>
      rw [List.take_succ_cons, List.countP_cons]
      have hfa : (decide (a ∈ a :: tl.take m) : Bool) = true := by
        simp
      rw [hfa]
      have hcongr : tl.countP (fun k => decide (k ∈ a :: tl.take m)) =
          tl.countP (fun k => decide (k ∈ tl.take m)) := by
        apply List.countP_congr
        intro x hx
        have hxa : x ≠ a := fun h => hnda.1 (h ▸ hx)
        simp [List.mem_cons, hxa]
      simp only [hcongr, ih m hnda.2]
      simp

/-- The mask `mask[idx[:n]] = True` over `range N` has exactly `n` `True`
entries when `idx` is a permutation of `range N` and `n ≤ N`. -/
theorem count_mask_eq (N n : ℕ) (idx : List ℕ) (hperm : idx.Perm (List.range N))
    (hn : n ≤ N) :
    ((List.range N).map (fun k => decide (k ∈ idx.take n))).count true = n := by
  have hlen : idx.length = N := by rw [hperm.length_eq, List.length_range]
  have hnd : idx.Nodup := hperm.nodup_iff.mpr (List.nodup_range N)
  rw [List.count_eq_countP, List.countP_map]
  have hcongr : (List.range N).countP ((fun b => b == true) ∘
      (fun k => decide (k ∈ idx.take n))) =
      (List.range N).countP (fun k => decide (k ∈ idx.take n)) := by
    apply List.countP_congr
    intro x _
    simp
  rw [hcongr, ← hperm.countP_eq, countP_prefix_eq_length idx n hnd,
    List.length_take, hlen]
  omega

/-! ### Generic facts about `cumsum` and `countP` -/

theorem cumsum_length (l : List ℕ) : (cumsum l).length = l.length := by
  induction l with
  | nil => rfl
  | cons a t ih => simp [cumsum, ih]

theorem cumsum_get (l : List ℕ) (j : ℕ) (h : j < (cumsum l).length) :
    (cumsum l).get ⟨j, h⟩ = (l.take (j + 1)).sum := by
  induction l generalizing j with
  | nil => simp [cumsum] at h
  | cons a t ih =>
    cases j with
    | zero => simp [cumsum]
    | succ m =>
      have hm : m < (cumsum t).length := by
        simpa [cumsum, cumsum_length] using h
      have hstep : (cumsum (a :: t)).get ⟨m + 1, h⟩ =
          a + (cumsum t).get ⟨m, hm⟩ := by
        simp [cumsum]
      rw [hstep, ih m hm, List.take_succ_cons, List.sum_cons]

theorem cumsum_all_zero {l : List ℕ} (h : ∀ a ∈ l, a = 0) :
    ∀ c ∈ cumsum l, c = 0 := by
  induction l with
  | nil => intro c hc; cases hc
  | cons a t ih =>
    intro c hc
    rcases List.mem_cons.mp hc with rfl | hc'
    · exact h c (List.mem_cons_self _ _)
    · rcases List.mem_map.mp hc' with ⟨b, hb, rfl⟩
      have hb0 := ih (fun x hx => h x (List.mem_cons_of_mem _ hx)) b hb
      have ha0 := h a (List.mem_cons_self _ _)
      omega

/-- `countP` splits over a pointwise-disjoint disjunction. -/
theorem countP_or_disjoint {α : Type} (l : List α) (p q : α → Bool)
    (hdisj : ∀ x ∈ l, ¬(p x = true ∧ q x = true)) :
    l.countP (fun x => p x || q x) = l.countP p + l.countP q := by
  induction l with
  | nil => simp
  | cons a t ih =>
    have hih := ih fun x hx => hdisj x (List.mem_cons_of_mem _ hx)
    have hda := hdisj a (List.mem_cons_self _ _)
    rw [List.countP_cons, List.countP_cons, List.countP_cons, hih]
    by_cases hpa : p a = true <;> by_cases hqa : q a = true <;>
      simp [hpa, hqa] at hda ⊢ <;> omega

/-- Counting occurrences bucketed by a duplicate-free list of targets. -/
theorem sum_countP_eq_countP_mem {α β : Type} [DecidableEq α]
    (A : List α) (hA : A.Nodup) (l : List β) (f : β → α) :
    (A.map (fun a => l.countP (fun x => decide (f x = a)))).sum =
      l.countP (fun x => decide (f x ∈ A)) := by
  induction A with
  | nil => simp
  | cons a A' ih =>
    have hnd := List.nodup_cons.mp hA
    rw [List.map_cons, List.sum_cons, ih hnd.2]
    have hsplit : l.countP (fun x => decide (f x ∈ a :: A')) =
        l.countP (fun x => decide (f x = a) || decide (f x ∈ A')) := by
      apply List.countP_congr
      intro x _
      simp [List.mem_cons]
    rw [hsplit, countP_or_disjoint]
    intro x _
    simp only [decide_eq_true_eq, not_and]
    intro hfa hmem
    exact hnd.1 (hfa ▸ hmem)

/-! ### Properties of the comparators -/

theorem lexLe_trans {α : Type} [LinearOrder α] (key : ℕ → α) (a b c : ℕ)
    (hab : lexLe key a b) (hbc : lexLe key b c) : lexLe key a c := by
  simp only [lexLe] at hab hbc ⊢
  rcases hab with h1 | ⟨h1, h1'⟩ <;> rcases hbc with h2 | ⟨h2, h2'⟩
  · exact Or.inl (h1.trans h2)
  · exact Or.inl (h2 ▸ h1)
  · exact Or.inl (h1 ▸ h2)
  · exact Or.inr ⟨h1.trans h2, h1'.trans h2'⟩

theorem lexLe_total {α : Type} [LinearOrder α] (key : ℕ → α) (a b : ℕ) :
    lexLe key a b ∨ lexLe key b a := by
  simp only [lexLe]
  rcases lt_trichotomy (key a) (key b) with h | h | h
  · exact Or.inl (Or.inl h)
  · rcases Nat.le_total a b with h' | h'
    · exact Or.inl (Or.inr ⟨h, h'⟩)
    · exact Or.inr (Or.inr ⟨h.symm, h'⟩)
  · exact Or.inr (Or.inl h)

theorem lexLe_antisymm {α : Type} [LinearOrder α] (key : ℕ → α) (a b : ℕ)
    (hab : lexLe key a b) (hba : lexLe key b a) : a = b := by
  simp only [lexLe] at hab hba
  rcases hab with h1 | ⟨h1, h1'⟩ <;> rcases hba with h2 | ⟨h2, h2'⟩
  · exact absurd h2 (lt_asymm h1)
  · exact absurd h1 (h2 ▸ lt_irrefl _)
  · exact absurd h2 (h1 ▸ lt_irrefl _)
  · exact Nat.le_antisymm h1' h2'

theorem lexGe_trans {α : Type} [LinearOrder α] (key : ℕ → α) (a b c : ℕ)
    (hab : lexGe key a b) (hbc : lexGe key b c) : lexGe key a c := by
  simp only [lexGe] at hab hbc ⊢
  rcases hab with h1 | ⟨h1, h1'⟩ <;> rcases hbc with h2 | ⟨h2, h2'⟩
  · exact Or.inl (h2.trans h1)
  · exact Or.inl (h2 ▸ h1)
  · exact Or.inl (h1 ▸ h2)
  · exact Or.inr ⟨h2 ▸ h1, h1'.trans h2'⟩

theorem lexGe_total {α : Type} [LinearOrder α] (key : ℕ → α) (a b : ℕ) :
    lexGe key a b ∨ lexGe key b a := by
  simp only [lexGe]
  rcases lt_trichotomy (key a) (key b) with h | h | h
  · exact Or.inr (Or.inl h)
  · rcases Nat.le_total a b with h' | h'
    · exact Or.inl (Or.inr ⟨h, h'⟩)
    · exact Or.inr (Or.inr ⟨h.symm, h'⟩)
  · exact Or.inl (Or.inl h)

theorem lexGe_antisymm {α : Type} [LinearOrder α] (key : ℕ → α) (a b : ℕ)
    (hab : lexGe key a b) (hba : lexGe key b a) : a = b := by
  simp only [lexGe] at hab hba
  rcases hab with h1 | ⟨h1, h1'⟩ <;> rcases hba with h2 | ⟨h2, h2'⟩
  · exact absurd h2 (lt_asymm h1)
  · exact absurd h1 (h2 ▸ lt_irrefl _)
  · exact absurd h2 (h1 ▸ lt_irrefl _)
  · exact Nat.le_antisymm h1' h2'

/-! ### Facts about `nKeep` -/

theorem nKeep_le (g : ℚ) (N : ℕ) (hg1 : g ≤ 1) : nKeep g N ≤ N := by
  have h : (⌈g * (N : ℚ)⌉ : ℤ) ≤ N := by
    rw [Int.ceil_le]
    calc g * (N : ℚ) ≤ 1 * (N : ℚ) := by
          apply mul_le_mul_of_nonneg_right hg1 (by positivity)
      _ = ((N : ℤ) : ℚ) := by push_cast; ring
  rw [nKeep]
  omega

theorem nKeep_pos (g : ℚ) (N : ℕ) (hg0 : 0 < g) (hN : 0 < N) :
    0 < nKeep g N := by
  have h : (0 : ℤ) < ⌈g * (N : ℚ)⌉ := by
    rw [Int.ceil_pos]
    positivity
  rw [nKeep]
  omega

theorem nKeep_one (N : ℕ) : nKeep 1 N = N := by
  rw [nKeep, one_mul, Int.ceil_natCast, Int.toNat_natCast]

/-- Evaluation rule for `nKeep` at concrete values. -/
theorem nKeep_eq_of (g : ℚ) (N m : ℕ) (h1 : (m : ℚ) - 1 < g * N)
    (h2 : g * N ≤ m) : nKeep g N = m := by
  rw [nKeep]
  have hc : ⌈g * (N : ℚ)⌉ = (m : ℤ) := by
    rw [Int.ceil_eq_iff]
    constructor
    · push_cast
      exact h1
    · push_cast
      exact h2
  rw [hc, Int.toNat_natCast]

/-! ### Sortedness facts for the gate index lists -/

theorem cmIdx_perm (data : List (List ℚ)) :
    (cmIdx data).Perm (List.range data.length) :=
  sortIdx_perm data.length (lexLe (cmDsq data))

theorem cmIdx_nodup (data : List (List ℚ)) : (cmIdx data).Nodup :=
  sortIdx_nodup data.length (lexLe (cmDsq data))

theorem cmIdx_mem (data : List (List ℚ)) (k : ℕ) :
    k ∈ cmIdx data ↔ k < data.length :=
  sortIdx_mem data.length (lexLe (cmDsq data)) k

theorem cmIdx_pairwise (data : List (List ℚ)) :
    (cmIdx data).Pairwise (lexLe (cmDsq data)) :=
  sortIdx_pairwise data.length (lexLe (cmDsq data))
    (lexLe_total (cmDsq data)) (lexLe_trans (cmDsq data))

theorem whIdx_perm (data : List (List ℚ)) (w : Fin 2 → ℝ)
    (v : Matrix (Fin 2) (Fin 2) ℝ) :
    (whIdx data w v).Perm (List.range data.length) :=
  sortIdx_perm data.length (lexLe (whDsq data w v))

theorem densSidx_perm (data : List (List ℚ)) (sigma : ℚ) :
    (densSidx data sigma).Perm (List.range (1024 * 1024)) :=
  sortIdx_perm (1024 * 1024) (lexGe (densVD data sigma))

theorem densSidx_nodup (data : List (List ℚ)) (sigma : ℚ) :
    (densSidx data sigma).Nodup :=
  sortIdx_nodup (1024 * 1024) (lexGe (densVD data sigma))

theorem densSidx_mem (data : List (List ℚ)) (sigma : ℚ) (l : ℕ) :
    l ∈ densSidx data sigma ↔ l < 1024 * 1024 :=
  sortIdx_mem (1024 * 1024) (lexGe (densVD data sigma)) l

theorem densSidx_pairwise (data : List (List ℚ)) (sigma : ℚ) :
    (densSidx data sigma).Pairwise (lexGe (densVD data sigma)) :=
  sortIdx_pairwise (1024 * 1024) (lexGe (densVD data sigma))
    (lexGe_total (densVD data sigma)) (lexGe_trans (densVD data sigma))

/-! ### Reading off mask entries -/

theorem cmMask_getD (data : List (List ℚ)) (g : ℚ) (k : ℕ)
    (hk : k < data.length) :
    (cmMask data g).getD k false =
      decide (k ∈ (cmIdx data).take (nKeep g data.length)) := by
  rw [cmMask, List.getD_eq_getElem?_getD, List.getElem?_map,
    List.getElem?_range hk, Option.map_some', Option.getD_some]

/-! ### The distance field of circular_median -/

theorem cmDsq_nonneg (data : List (List ℚ)) (k : ℕ) : 0 ≤ cmDsq data k := by
  apply List.sum_nonneg
  intro x hx
  rcases List.mem_map.mp hx with ⟨j, _, rfl⟩
  positivity

theorem cmDist_lt_iff (data : List (List ℚ)) (j k : ℕ) :
    cmDist data j < cmDist data k ↔ cmDsq data j < cmDsq data k := by
  rw [cmDist, cmDist, Real.sqrt_lt_sqrt_iff (by exact_mod_cast cmDsq_nonneg data j)]
  exact_mod_cast Iff.rfl

theorem cmDist_eq_iff (data : List (List ℚ)) (j k : ℕ) :
    cmDist data j = cmDist data k ↔ cmDsq data j = cmDsq data k := by
  rw [cmDist, cmDist,
    Real.sqrt_inj (by exact_mod_cast cmDsq_nonneg data j)
      (by exact_mod_cast cmDsq_nonneg data k)]
  exact_mod_cast Iff.rfl

/-! ### Claim C2 -/

/-- C2: for every event table with `N ≥ 2` events and at least two
dimensions and every `gate_fraction` in `(0, 1]`, the masks returned by
`circular_median` and by `whitening` (for any eigendecomposition output
`(w, v)`) contain exactly `⌈gate_fraction * N⌉` `True` entries; in
particular `gate_fraction = 1` retains all `N` events. -/
theorem C2_mask_counts (data : List (List ℚ)) (g : ℚ)
    (hN : 2 ≤ data.length) (hD : 2 ≤ ncols data) (hg0 : 0 < g) (hg1 : g ≤ 1) :
    (∀ mask cntr, circular_median (Sum.inr data) g = .ok (mask, cntr) →
      mask.count true = nKeep g data.length) ∧
    (∀ (w : Fin 2 → ℝ) (v : Matrix (Fin 2) (Fin 2) ℝ) mask cntr,
      whitening (Sum.inr data) g w v = .ok (mask, cntr) →
      mask.count true = nKeep g data.length) ∧
    (g = 1 → nKeep g data.length = data.length) := by
  have hle := nKeep_le g data.length hg1
  refine ⟨?_, ?_, ?_⟩
  · intro mask cntr hok
    simp only [circular_median, if_neg (by omega : ¬ data.length < 2),
      if_pos hD] at hok
    have hmask : mask = cmMask data g := by
      cases hok
      rfl
    rw [hmask, cmMask]
    exact count_mask_eq data.length (nKeep g data.length) (cmIdx data)
      (cmIdx_perm data) hle
  · intro w v mask cntr hok
    simp only [whitening, if_neg (by omega : ¬ data.length < 2),
      if_pos hD] at hok
    have hmask : mask = whMask data g w v := by
      cases hok
      rfl
    rw [hmask, whMask]
    exact count_mask_eq data.length (nKeep g data.length) (whIdx data w v)
      (whIdx_perm data w v) hle
  · intro hg
    rw [hg, nKeep_one]

/-- Witness for C2 at a concrete table: three events, `gate_fraction = 1`,
all three events retained by `circular_median`. -/
theorem C2_mask_counts_witness :
    2 ≤ ncols [[(0 : ℚ), 0], [1, 1], [2, 2]] ∧
    (cmMask [[(0 : ℚ), 0], [1, 1], [2, 2]] 1).count true = nKeep 1 3 ∧
    nKeep 1 3 = 3 :=
  ⟨by decide,
   (C2_mask_counts [[(0 : ℚ), 0], [1, 1], [2, 2]] 1 (by decide) (by decide)
      (by norm_num) (by norm_num)).1 _ _ rfl,
   (C2_mask_counts [[(0 : ℚ), 0], [1, 1], [2, 2]] 1 (by decide) (by decide)
      (by norm_num) (by norm_num)).2.2 rfl⟩

/-! ### Claim C3 -/

/-- C3: `circular_median` marks `True` exactly the `n = ⌈g*N⌉` events whose
Euclidean distance to the per-channel median of the first two columns is
smallest, ties at equal distance broken in favor of the smaller original
index: event `k` is retained iff fewer than `n` events precede it in the
(distance, index) order. -/
theorem C3_closest_events (data : List (List ℚ)) (g : ℚ)
    (hN : 2 ≤ data.length) (hD : 2 ≤ ncols data) (hg0 : 0 < g) (hg1 : g ≤ 1)
    (k : ℕ) (hk : k < data.length) :
    ((cmMask data g).getD k false = true ↔
      (List.range data.length).countP
        (fun j => decide (cmDist data j < cmDist data k ∨
                          (cmDist data j = cmDist data k ∧ j < k)))
        < nKeep g data.length) := by
  rw [cmMask_getD data g k hk, decide_eq_true_eq]
  rw [mem_take_iff_countP_lt (lexLe_antisymm (cmDsq data)) (cmIdx_pairwise data)
    (cmIdx_nodup data) ((cmIdx_mem data k).mpr hk)]
  rw [List.Perm.countP_eq _ (cmIdx_perm data)]
  have hcongr : (List.range data.length).countP
      (fun j => decide (lexLe (cmDsq data) j k ∧ j ≠ k)) =
      (List.range data.length).countP
        (fun j => decide (cmDist data j < cmDist data k ∨
                          (cmDist data j = cmDist data k ∧ j < k))) := by
    apply List.countP_congr
    intro j _
    simp only [decide_eq_true_eq]
    rw [cmDist_lt_iff, cmDist_eq_iff]
    simp only [lexLe]
    constructor
    · rintro ⟨h1 | ⟨h1, h1'⟩, hne⟩
      · exact Or.inl h1
      · exact Or.inr ⟨h1, lt_of_le_of_ne h1' hne⟩
    · rintro (h | ⟨h, h'⟩)
      · refine ⟨Or.inl h, ?_⟩
        rintro rfl
        exact absurd h (lt_irrefl _)
      · exact ⟨Or.inr ⟨h, le_of_lt h'⟩, Nat.ne_of_lt h'⟩
  rw [hcongr]

/-- Per-column medians of the concrete ten-event table. -/
theorem exMedianGrid_m0 : cmM exMedianGrid 0 = 9 / 2 := by
  norm_num [cmM, col, exMedianGrid, npMedian, List.insertionSort,
    List.orderedInsert, List.filterMap_cons, List.filterMap_nil]

theorem exMedianGrid_m1 : cmM exMedianGrid 1 = 0 := by
  norm_num [cmM, col, exMedianGrid, npMedian, List.insertionSort,
    List.orderedInsert, List.filterMap_cons, List.filterMap_nil]

/-- The squared distances to the median for the concrete ten-event table. -/
theorem exMedianGrid_dsq (k : ℕ) (hk : k < 10) :
    cmDsq exMedianGrid k =
      [81/4, 49/4, 25/4, 9/4, 1/4, 1/4, 9/4, 25/4, 49/4, 81/4].getD k 0 := by
  rw [cmDsq, show min 2 (ncols exMedianGrid) = 2 from rfl,
    show List.range 2 = [0, 1] from rfl]
  simp only [List.map_cons, List.map_nil, List.sum_cons, List.sum_nil,
    exMedianGrid_m0, exMedianGrid_m1]
  interval_cases k <;> norm_num [exMedianGrid]

/-- The sorted index list of the concrete ten-event table. -/
theorem exMedianGrid_idx : cmIdx exMedianGrid = [4, 5, 3, 6, 2, 7, 1, 8, 0, 9] := by
  have h0 := exMedianGrid_dsq 0 (by norm_num)
  have h1 := exMedianGrid_dsq 1 (by norm_num)
  have h2 := exMedianGrid_dsq 2 (by norm_num)
  have h3 := exMedianGrid_dsq 3 (by norm_num)
  have h4 := exMedianGrid_dsq 4 (by norm_num)
  have h5 := exMedianGrid_dsq 5 (by norm_num)
  have h6 := exMedianGrid_dsq 6 (by norm_num)
  have h7 := exMedianGrid_dsq 7 (by norm_num)
  have h8 := exMedianGrid_dsq 8 (by norm_num)
  have h9 := exMedianGrid_dsq 9 (by norm_num)
  norm_num at h0 h1 h2 h3 h4 h5 h6 h7 h8 h9
  rw [cmIdx, show exMedianGrid.length = 10 from rfl]
  norm_num [lexLe, List.insertionSort, List.orderedInsert, List.range_succ,
    h0, h1, h2, h3, h4, h5, h6, h7, h8, h9]

theorem exMedianGrid_nKeep : nKeep (1/2) exMedianGrid.length = 5 := by
  rw [show exMedianGrid.length = 10 from rfl]
  exact nKeep_eq_of _ _ _ (by norm_num) (by norm_num)

/-- Witness for C3 on the concrete scenario of the specification: ten
events with channel-1 values `0..9`, channel-2 constant `0`, gate fraction
`1/2`; the characterization holds at event `2`, the mask retains exactly
the events with channel-1 in `{2,3,4,5,6}`, and the boundary radius is
`5/2`. -/
theorem C3_closest_events_witness :
    ((cmMask exMedianGrid (1/2)).getD 2 false = true ↔
      (List.range exMedianGrid.length).countP
        (fun j => decide (cmDist exMedianGrid j < cmDist exMedianGrid 2 ∨
                          (cmDist exMedianGrid j = cmDist exMedianGrid 2 ∧ j < 2)))
        < nKeep (1/2) exMedianGrid.length) ∧
    cmMask exMedianGrid (1/2) =
      [false, false, true, true, true, true, true, false, false, false] ∧
    cmR exMedianGrid (1/2) = 5 / 2 := by
  refine ⟨C3_closest_events exMedianGrid (1/2) (by decide) (by decide)
    (by norm_num) (by norm_num) 2 (by decide), ?_, ?_⟩
  · rw [cmMask, exMedianGrid_nKeep, exMedianGrid_idx]
    decide
  · have hboundary : (cmIdx exMedianGrid).getD
        (nKeep (1/2) exMedianGrid.length - 1) 0 = 2 := by
      rw [exMedianGrid_idx, exMedianGrid_nKeep]
      rfl
    have hq := exMedianGrid_dsq 2 (by norm_num)
    norm_num at hq
    rw [cmR, hboundary, hq]
    rw [show ((25 / 4 : ℚ) : ℝ) = (5 / 2) ^ 2 by norm_num]
    exact Real.sqrt_sq (by norm_num)

/-! ### Claim C6 -/

/-- C6: the contour returned by `circular_median` is a 101-point sequence
whose last point equals its first, consisting of 100 regularly spaced
vertices of a circle centered at the median point `M = (m0, m1)`, every
vertex at distance `r` from `M`, where `r` is the distance to `M` of the
event in position `n - 1` of the distance-sorted index list (the n-th
closest event), `n = ⌈g*N⌉`. -/
theorem C6_contour (data : List (List ℚ)) (g : ℚ)
    (hN : 2 ≤ data.length) (hD : 2 ≤ ncols data) (hg0 : 0 < g) (hg1 : g ≤ 1) :
    ∀ mask cntr, circular_median (Sum.inr data) g = .ok (mask, cntr) →
      cntr.length = 101 ∧
      cntr.getLast? = cntr.head? ∧
      (∀ k : ℕ, k < 100 → cntr[k]? = some
        ((cmM data 0 : ℝ) + cmR data g * Real.cos (2 * Real.pi * k / 100),
         (cmM data 1 : ℝ) + cmR data g * Real.sin (2 * Real.pi * k / 100))) ∧
      (∀ p ∈ cntr,
        Real.sqrt ((p.1 - (cmM data 0 : ℝ)) ^ 2 + (p.2 - (cmM data 1 : ℝ)) ^ 2) =
          cmR data g) ∧
      (∃ hb : nKeep g data.length - 1 < (cmIdx data).length,
        cmR data g = cmDist data ((cmIdx data).get
          ⟨nKeep g data.length - 1, hb⟩)) := by
  intro mask cntr hok
  simp only [circular_median, if_neg (by omega : ¬ data.length < 2),
    if_pos hD] at hok
  have hc : cntr = cmContour data g := by
    cases hok
    rfl
  subst hc
  have hlen : (cmPts data g).length = 100 := by
    rw [cmPts, List.length_map, List.length_range]
  have hne : cmPts data g ≠ [] := by
    intro h
    rw [h] at hlen
    simp at hlen
  obtain ⟨p0, rest, hcons⟩ := List.exists_cons_of_ne_nil hne
  have htake : (cmPts data g).take 1 = [p0] := by
    rw [hcons]
    rfl
  have h1 : cmContour data g = cmPts data g ++ [p0] := by
    rw [cmContour, htake]
  refine ⟨?_, ?_, ?_, ?_, ?_⟩
  · rw [h1, List.length_append, hlen]
    rfl
  · have hlast : (cmContour data g).getLast? = some p0 := by
      rw [h1, List.getLast?_concat]
    have hhead : (cmContour data g).head? = some p0 := by
      rw [h1, hcons]
      rfl
    rw [hlast, hhead]
  · intro k hk
    rw [h1, List.getElem?_append_left (by omega : k < (cmPts data g).length)]
    rw [cmPts, List.getElem?_map, List.getElem?_range hk, Option.map_some']
  · intro p hp
    rw [h1, List.mem_append] at hp
    have hpm : p ∈ cmPts data g := by
      rcases hp with h | h
      · exact h
      · rw [List.mem_singleton] at h
        rw [h, hcons]
        exact List.mem_cons_self _ _
    rw [cmPts, List.mem_map] at hpm
    obtain ⟨k, _, rfl⟩ := hpm
    have hr0 : 0 ≤ cmR data g := Real.sqrt_nonneg _
    have hsq : ((cmM data 0 : ℝ) + cmR data g * Real.cos (2 * Real.pi * k / 100)
          - (cmM data 0 : ℝ)) ^ 2 +
        ((cmM data 1 : ℝ) + cmR data g * Real.sin (2 * Real.pi * k / 100)
          - (cmM data 1 : ℝ)) ^ 2 = cmR data g ^ 2 := by
      have hcs := Real.sin_sq_add_cos_sq (2 * Real.pi * k / 100)
      nlinarith [hcs]
    rw [hsq, Real.sqrt_sq_eq_abs, abs_of_nonneg hr0]
  · have hnpos := nKeep_pos g data.length hg0 (by omega)
    have hlenidx : (cmIdx data).length = data.length := by
      rw [(cmIdx_perm data).length_eq, List.length_range]
    have hle := nKeep_le g data.length hg1
    have hb : nKeep g data.length - 1 < (cmIdx data).length := by omega
    refine ⟨hb, ?_⟩
    have hgetD : (cmIdx data).getD (nKeep g data.length - 1) 0 =
        (cmIdx data).get ⟨nKeep g data.length - 1, hb⟩ := by
      rw [List.getD_eq_getElem?_getD, List.getElem?_eq_getElem hb]
      rfl
    rw [cmR, hgetD, cmDist]

/-- Witness for C6 at the concrete ten-event table. -/
theorem C6_contour_witness :
    (cmContour exMedianGrid (1/2)).length = 101 ∧
    (cmContour exMedianGrid (1/2)).getLast? = (cmContour exMedianGrid (1/2)).head? := by
  have h := C6_contour exMedianGrid (1/2) (by decide) (by decide) (by norm_num)
    (by norm_num) _ _ rfl
  exact ⟨h.1, h.2.1⟩

/-! ### Orthonormal eigenvector columns -/

/-- Component form of `v.T.dot(v) = I` for a 2×2 matrix. -/
theorem orthonormal_cols {v : Matrix (Fin 2) (Fin 2) ℝ}
    (hv : v.transpose * v = 1) :
    v 0 0 * v 0 0 + v 1 0 * v 1 0 = 1 ∧
    v 0 0 * v 0 1 + v 1 0 * v 1 1 = 0 ∧
    v 0 1 * v 0 1 + v 1 1 * v 1 1 = 1 := by
  have h00 := congrFun (congrFun hv 0) 0
  have h01 := congrFun (congrFun hv 0) 1
  have h11 := congrFun (congrFun hv 1) 1
  simp [Matrix.mul_apply, Matrix.transpose_apply, Fin.sum_univ_two,
    Matrix.one_apply] at h00 h01 h11
  exact ⟨h00, h01, h11⟩

/-! ### Claim C5 -/

/-- C5: the back-mapping `M + c·diag(sqrt w)·vᵀ` used by `whitening` to
build its contour is inverse to the forward whitening transform
`p ↦ p·v·diag(1/sqrt w)` whenever `v` has orthonormal columns and the
eigenvalues are positive; consequently the forward transform applied to
any returned contour vertex minus `M` is a point at distance `r = whR`
from the origin. -/
theorem C5_roundtrip (data : List (List ℚ)) (g : ℚ) (w : Fin 2 → ℝ)
    (v : Matrix (Fin 2) (Fin 2) ℝ)
    (hv : v.transpose * v = 1) (hw : ∀ i, 0 < w i) :
    (∀ c : ℝ × ℝ,
      whFwd w v (whBack w v ((cmM data 0 : ℝ), (cmM data 1 : ℝ)) c -
        ((cmM data 0 : ℝ), (cmM data 1 : ℝ))) = c) ∧
    (∀ p ∈ whContour data g w v,
      Real.sqrt ((whFwd w v (p - ((cmM data 0 : ℝ), (cmM data 1 : ℝ)))).1 ^ 2 +
          (whFwd w v (p - ((cmM data 0 : ℝ), (cmM data 1 : ℝ)))).2 ^ 2) =
        whR data g w v) := by
  obtain ⟨h00, h01, h11⟩ := orthonormal_cols hv
  have hs0 : Real.sqrt (w 0) ≠ 0 := ne_of_gt (Real.sqrt_pos.mpr (hw 0))
  have hs1 : Real.sqrt (w 1) ≠ 0 := ne_of_gt (Real.sqrt_pos.mpr (hw 1))
  have hinv : ∀ c : ℝ × ℝ,
      whFwd w v (whBack w v ((cmM data 0 : ℝ), (cmM data 1 : ℝ)) c -
        ((cmM data 0 : ℝ), (cmM data 1 : ℝ))) = c := by
    intro c
    rw [whFwd, whBack, Prod.ext_iff]
    constructor
    · simp only [Prod.fst_sub, Prod.snd_sub]
      field_simp
      ring_nf
      linear_combination (Real.sqrt (w 0) * c.1) * h00 +
        (Real.sqrt (w 1) * c.2) * h01
    · simp only [Prod.fst_sub, Prod.snd_sub]
      field_simp
      ring_nf
      linear_combination (Real.sqrt (w 0) * c.1) * h01 +
        (Real.sqrt (w 1) * c.2) * h11
  refine ⟨hinv, ?_⟩
  intro p hp
  rw [whContour, List.mem_map] at hp
  obtain ⟨c, hc, rfl⟩ := hp
  rw [hinv c]
  have hr0 : 0 ≤ whR data g w v := Real.sqrt_nonneg _
  have hcmem : c ∈ whCirclePts data g w v := by
    rw [whCircle, List.mem_append] at hc
    rcases hc with h | h
    · exact h
    · exact List.mem_of_mem_take h
  rw [whCirclePts, List.mem_map] at hcmem
  obtain ⟨k, _, rfl⟩ := hcmem
  have hsq : (whR data g w v * Real.cos (2 * Real.pi * (k : ℝ) / 100)) ^ 2 +
      (whR data g w v * Real.sin (2 * Real.pi * (k : ℝ) / 100)) ^ 2 =
      whR data g w v ^ 2 := by
    have hcs := Real.sin_sq_add_cos_sq (2 * Real.pi * (k : ℝ) / 100)
    nlinarith [hcs]
  rw [hsq, Real.sqrt_sq_eq_abs, abs_of_nonneg hr0]

/-- Witness for C5: identity eigenvectors, unit eigenvalues, concrete
vertex `(3, 4)` in eigenspace. -/
theorem C5_roundtrip_witness :
    (1 : Matrix (Fin 2) (Fin 2) ℝ).transpose * 1 = 1 ∧
    whFwd ![1, 1] 1
      (whBack ![1, 1] 1 ((cmM exWhite 0 : ℝ), (cmM exWhite 1 : ℝ)) (3, 4) -
        ((cmM exWhite 0 : ℝ), (cmM exWhite 1 : ℝ))) = (3, 4) := by
  have hv : (1 : Matrix (Fin 2) (Fin 2) ℝ).transpose * 1 = 1 := by
    rw [Matrix.transpose_one, Matrix.one_mul]
  have hw : ∀ i : Fin 2, (0 : ℝ) < ![1, 1] i := by
    intro i
    fin_cases i <;> norm_num
  exact ⟨hv, (C5_roundtrip exWhite 1 ![1, 1] 1 hv hw).1 (3, 4)⟩

/-! ### Claim C4 -/

/-- Bilinear expansion of a sum of products of scaled linear forms. -/
theorem sum_quad_scaled (l : List (ℝ × ℝ)) (a b c d s t : ℝ) :
    (l.map (fun p => ((a * p.1 + b * p.2) * s) * ((c * p.1 + d * p.2) * t))).sum =
      s * t * (a * c * (l.map (fun p => p.1 ^ 2)).sum +
        (a * d + b * c) * (l.map (fun p => p.1 * p.2)).sum +
        b * d * (l.map (fun p => p.2 ^ 2)).sum) := by
  induction l with
  | nil => simp
  | cons x xs ih =>
    simp only [List.map_cons, List.sum_cons, ih]
    ring

/-- C4: whenever `(w, v)` is an eigendecomposition of the median-based
scatter matrix `S = Xᵀ·X/N` with orthonormal `v` and positive eigenvalues
(nonsingular `S`), the transformed data `X·v·diag(1/sqrt w)` has scatter
matrix exactly the 2×2 identity. -/
theorem C4_whitened_scatter (data : List (List ℚ)) (w : Fin 2 → ℝ)
    (v : Matrix (Fin 2) (Fin 2) ℝ) (hN : 2 ≤ data.length)
    (hS : whS data * v = v * Matrix.diagonal w)
    (hv : v.transpose * v = 1) (hw : ∀ i, 0 < w i) :
    scatter2 (whT data w v) data.length = 1 := by
  obtain ⟨h00, h01, h11⟩ := orthonormal_cols hv
  have hs0 : Real.sqrt (w 0) * Real.sqrt (w 0) = w 0 :=
    Real.mul_self_sqrt (le_of_lt (hw 0))
  have hs1 : Real.sqrt (w 1) * Real.sqrt (w 1) = w 1 :=
    Real.mul_self_sqrt (le_of_lt (hw 1))
  have hs0ne : Real.sqrt (w 0) ≠ 0 := ne_of_gt (Real.sqrt_pos.mpr (hw 0))
  have hs1ne : Real.sqrt (w 1) ≠ 0 := ne_of_gt (Real.sqrt_pos.mpr (hw 1))
  have hNne : (data.length : ℝ) ≠ 0 := Nat.cast_ne_zero.mpr (by omega)
  have e00 := congrFun (congrFun hS 0) 0
  have e10 := congrFun (congrFun hS 1) 0
  have e01 := congrFun (congrFun hS 0) 1
  have e11 := congrFun (congrFun hS 1) 1
  simp only [whS, scatter2, Matrix.mul_apply, Fin.sum_univ_two,
    Matrix.smul_apply, Matrix.of_apply, Matrix.cons_val', Matrix.cons_val_zero,
    Matrix.cons_val_one, Matrix.head_cons, Matrix.empty_val',
    Matrix.cons_val_fin_one, Matrix.mul_diagonal, smul_eq_mul] at e00 e10 e01 e11
  field_simp at e00 e10 e01 e11
  have ht11 : ((whT data w v).map (fun p => p.1 ^ 2)).sum =
      (Real.sqrt (w 0))⁻¹ * (Real.sqrt (w 0))⁻¹ *
        (v 0 0 * v 0 0 * ((whXr data).map (fun p => p.1 ^ 2)).sum +
         (v 0 0 * v 1 0 + v 1 0 * v 0 0) * ((whXr data).map (fun p => p.1 * p.2)).sum +
         v 1 0 * v 1 0 * ((whXr data).map (fun p => p.2 ^ 2)).sum) := by
    rw [whT, List.map_map]
    have hfn : ((fun p : ℝ × ℝ => p.1 ^ 2) ∘ whFwd w v) =
        (fun p : ℝ × ℝ => ((v 0 0 * p.1 + v 1 0 * p.2) * (Real.sqrt (w 0))⁻¹) *
          ((v 0 0 * p.1 + v 1 0 * p.2) * (Real.sqrt (w 0))⁻¹)) := by
      funext p
      simp only [Function.comp_apply, whFwd]
      ring
    rw [hfn, sum_quad_scaled]
  have ht22 : ((whT data w v).map (fun p => p.2 ^ 2)).sum =
      (Real.sqrt (w 1))⁻¹ * (Real.sqrt (w 1))⁻¹ *
        (v 0 1 * v 0 1 * ((whXr data).map (fun p => p.1 ^ 2)).sum +
         (v 0 1 * v 1 1 + v 1 1 * v 0 1) * ((whXr data).map (fun p => p.1 * p.2)).sum +
         v 1 1 * v 1 1 * ((whXr data).map (fun p => p.2 ^ 2)).sum) := by
    rw [whT, List.map_map]
    have hfn : ((fun p : ℝ × ℝ => p.2 ^ 2) ∘ whFwd w v) =
        (fun p : ℝ × ℝ => ((v 0 1 * p.1 + v 1 1 * p.2) * (Real.sqrt (w 1))⁻¹) *
          ((v 0 1 * p.1 + v 1 1 * p.2) * (Real.sqrt (w 1))⁻¹)) := by
      funext p
      simp only [Function.comp_apply, whFwd]
      ring
    rw [hfn, sum_quad_scaled]
  have ht12 : ((whT data w v).map (fun p => p.1 * p.2)).sum =
      (Real.sqrt (w 0))⁻¹ * (Real.sqrt (w 1))⁻¹ *
        (v 0 0 * v 0 1 * ((whXr data).map (fun p => p.1 ^ 2)).sum +
         (v 0 0 * v 1 1 + v 1 0 * v 0 1) * ((whXr data).map (fun p => p.1 * p.2)).sum +
         v 1 0 * v 1 1 * ((whXr data).map (fun p => p.2 ^ 2)).sum) := by
    rw [whT, List.map_map]
    have hfn : ((fun p : ℝ × ℝ => p.1 * p.2) ∘ whFwd w v) =
        (fun p : ℝ × ℝ => ((v 0 0 * p.1 + v 1 0 * p.2) * (Real.sqrt (w 0))⁻¹) *
          ((v 0 1 * p.1 + v 1 1 * p.2) * (Real.sqrt (w 1))⁻¹)) := by
      funext p
      simp only [Function.comp_apply, whFwd]
      ring
    rw [hfn, sum_quad_scaled]
  have hT11 : ((whT data w v).map (fun p => p.1 ^ 2)).sum = (data.length : ℝ) := by
    rw [ht11]
    have key : v 0 0 * v 0 0 * ((whXr data).map (fun p => p.1 ^ 2)).sum +
        (v 0 0 * v 1 0 + v 1 0 * v 0 0) * ((whXr data).map (fun p => p.1 * p.2)).sum +
        v 1 0 * v 1 0 * ((whXr data).map (fun p => p.2 ^ 2)).sum =
        (data.length : ℝ) * w 0 := by
      linear_combination v 0 0 * e00 + v 1 0 * e10 +
        ((data.length : ℝ) * w 0) * h00
    rw [key, ← hs0]
    field_simp
  have hT22 : ((whT data w v).map (fun p => p.2 ^ 2)).sum = (data.length : ℝ) := by
    rw [ht22]
    have key : v 0 1 * v 0 1 * ((whXr data).map (fun p => p.1 ^ 2)).sum +
        (v 0 1 * v 1 1 + v 1 1 * v 0 1) * ((whXr data).map (fun p => p.1 * p.2)).sum +
        v 1 1 * v 1 1 * ((whXr data).map (fun p => p.2 ^ 2)).sum =
        (data.length : ℝ) * w 1 := by
      linear_combination v 0 1 * e01 + v 1 1 * e11 +
        ((data.length : ℝ) * w 1) * h11
    rw [key, ← hs1]
    field_simp
  have hT12 : ((whT data w v).map (fun p => p.1 * p.2)).sum = 0 := by
    rw [ht12]
    have key : v 0 0 * v 0 1 * ((whXr data).map (fun p => p.1 ^ 2)).sum +
        (v 0 0 * v 1 1 + v 1 0 * v 0 1) * ((whXr data).map (fun p => p.1 * p.2)).sum +
        v 1 0 * v 1 1 * ((whXr data).map (fun p => p.2 ^ 2)).sum = 0 := by
      linear_combination v 0 1 * e00 + v 1 1 * e10 +
        ((data.length : ℝ) * w 0) * h01
    rw [key, mul_zero]
  ext i j
  fin_cases i <;> fin_cases j
  · simp only [scatter2, Matrix.smul_apply, Matrix.of_apply, Matrix.cons_val',
      Matrix.cons_val_zero, Matrix.empty_val', Matrix.cons_val_fin_one,
      smul_eq_mul, hT11, Matrix.one_apply_eq]
    field_simp
  · simp only [scatter2, Matrix.smul_apply, Matrix.of_apply, Matrix.cons_val',
      Fin.mk_zero, Fin.mk_one, Matrix.cons_val_zero, Matrix.cons_val_one,
      Matrix.head_cons, Matrix.empty_val', Matrix.cons_val_fin_one,
      smul_eq_mul, hT12, Matrix.one_apply]
    norm_num
  · simp only [scatter2, Matrix.smul_apply, Matrix.of_apply, Matrix.cons_val',
      Fin.mk_zero, Fin.mk_one, Matrix.cons_val_zero, Matrix.cons_val_one,
      Matrix.head_cons, Matrix.empty_val', Matrix.cons_val_fin_one,
      smul_eq_mul, hT12, Matrix.one_apply]
    norm_num
  · simp only [scatter2, Matrix.smul_apply, Matrix.of_apply, Matrix.cons_val',
      Matrix.cons_val_zero, Matrix.cons_val_one, Matrix.head_cons,
      Matrix.empty_val', Matrix.cons_val_fin_one, smul_eq_mul, hT22,
      Matrix.one_apply_eq]
    field_simp

/-- Witness for C4 at the concrete eight-event table `exWhite`: its
median-based scatter matrix is `diag(1, 4)`, so `w = (1, 4)`, `v = I` is an
eigendecomposition, and the whitened scatter is the identity. -/
theorem C4_whitened_scatter_witness :
    whS exWhite * 1 = 1 * Matrix.diagonal ![(1 : ℝ), 4] ∧
    scatter2 (whT exWhite ![1, 4] 1) exWhite.length = 1 := by
  have hm0 : cmM exWhite 0 = 0 := by
    norm_num [cmM, col, exWhite, npMedian, List.insertionSort,
      List.orderedInsert, List.filterMap_cons, List.filterMap_nil]
  have hm1 : cmM exWhite 1 = 0 := by
    norm_num [cmM, col, exWhite, npMedian, List.insertionSort,
      List.orderedInsert, List.filterMap_cons, List.filterMap_nil]
  have hA : ((whXr exWhite).map (fun p => p.1 ^ 2)).sum = 8 := by
    simp only [whXr, whX, hm0, hm1]
    norm_num [exWhite]
  have hB : ((whXr exWhite).map (fun p => p.1 * p.2)).sum = 0 := by
    simp only [whXr, whX, hm0, hm1]
    norm_num [exWhite]
  have hC : ((whXr exWhite).map (fun p => p.2 ^ 2)).sum = 32 := by
    simp only [whXr, whX, hm0, hm1]
    norm_num [exWhite]
  have hS : whS exWhite * 1 = 1 * Matrix.diagonal ![(1 : ℝ), 4] := by
    rw [Matrix.mul_one, Matrix.one_mul]
    ext i j
    fin_cases i <;> fin_cases j <;>
      simp [whS, scatter2, hA, hB, hC, Matrix.diagonal,
        show exWhite.length = 8 from rfl] <;> norm_num
  have hv : (1 : Matrix (Fin 2) (Fin 2) ℝ).transpose * 1 = 1 := by
    rw [Matrix.transpose_one, Matrix.one_mul]
  have hw : ∀ i : Fin 2, (0 : ℝ) < ![(1 : ℝ), 4] i := by
    intro i
    fin_cases i <;> norm_num
  exact ⟨hS, C4_whitened_scatter exWhite ![1, 4] 1 (by decide) hS hv hw⟩

/-! ### Claim C8 -/

/-- Every error produced by the contour-assembly loop is the unrecognized
path code exception. -/
theorem buildContours_error_eq {t : List (List (ℚ × ℚ) × List ℤ)}
    {e : GateError} (h : buildContours t = .error e) : e = .contourError := by
  induction t with
  | nil => simp [buildContours] at h
  | cons a rest ih =>
    obtain ⟨vs, codes⟩ := a
    rw [buildContours] at h
    by_cases hc : codes.all (fun c => c == 1 || c == 2)
    · rw [if_pos hc] at h
      cases hb : buildContours rest with
      | ok cs =>
        rw [hb] at h
        cases h
      | error e' =>
        rw [hb] at h
        cases h
        exact ih hb
    · rw [if_neg hc] at h
      cases h
      rfl

/-- C8 (amended): the gates raise the dimension validation error exactly on
rank-1 arrays (the check `len(data.shape) < 2` tests array rank, not the
column count), the event-count validation error on rank-2 arrays with
fewer than 2 rows, and on any rank-2 array with at least 2 rows no
validation error at all — in particular an N×1 two-dimensional table
passes validation and fails only later, mid-computation. -/
theorem C8_validation (g sigma : ℚ) (w : Fin 2 → ℝ)
    (v : Matrix (Fin 2) (Fin 2) ℝ)
    (traceFn : ℝ → List (List (ℚ × ℚ) × List ℤ)) :
    (∀ l : List ℚ,
      circular_median (Sum.inl l) g =
        .error (.validation "must specify at least 2 dimensions (FSC and SSC)") ∧
      whitening (Sum.inl l) g w v =
        .error (.validation "must specify at least 2 dimensions (FSC and SSC)") ∧
      density (Sum.inl l) sigma g traceFn =
        .error (.validation "must specify at least 2 dimensions (FSC and SSC)")) ∧
    (∀ rows : List (List ℚ), rows.length < 2 →
      circular_median (Sum.inr rows) g =
        .error (.validation "data must have more than 1 event") ∧
      whitening (Sum.inr rows) g w v =
        .error (.validation "data must have more than 1 event") ∧
      density (Sum.inr rows) sigma g traceFn =
        .error (.validation "data must have more than 1 event")) ∧
    (∀ rows : List (List ℚ), 2 ≤ rows.length →
      (∀ msg, circular_median (Sum.inr rows) g ≠ .error (.validation msg)) ∧
      (∀ msg, whitening (Sum.inr rows) g w v ≠ .error (.validation msg)) ∧
      (∀ msg, density (Sum.inr rows) sigma g traceFn ≠
        .error (.validation msg))) := by
  refine ⟨fun l => ⟨rfl, rfl, rfl⟩, ?_, ?_⟩
  · intro rows hlen
    refine ⟨?_, ?_, ?_⟩
    · rw [circular_median, if_pos hlen]
    · rw [whitening, if_pos hlen]
    · rw [density, if_pos hlen]
  · intro rows hlen
    refine ⟨?_, ?_, ?_⟩
    · intro msg hcontra
      rw [circular_median, if_neg (by omega)] at hcontra
      by_cases hD : 2 ≤ ncols rows
      · rw [if_pos hD] at hcontra
        cases hcontra
      · rw [if_neg hD] at hcontra
        cases hcontra
    · intro msg hcontra
      rw [whitening, if_neg (by omega)] at hcontra
      by_cases hD : 2 ≤ ncols rows
      · rw [if_pos hD] at hcontra
        cases hcontra
      · rw [if_neg hD] at hcontra
        cases hcontra
    · intro msg hcontra
      rw [density, if_neg (by omega)] at hcontra
      by_cases hD : 2 ≤ ncols rows
      · rw [if_pos hD] at hcontra
        cases hN : densNidx? rows sigma g with
        | none =>
          rw [hN] at hcontra
          cases hcontra
        | some Nidx =>
          simp only [hN] at hcontra
          cases hb : buildContours (traceFn (densVD rows sigma
              ((densSidx rows sigma).getD Nidx 0))) with
          | ok cs =>
            simp only [hb] at hcontra
            exact Except.noConfusion hcontra
          | error e =>
            simp only [hb] at hcontra
            have he : e = GateError.validation msg := Except.error.inj hcontra
            have hce := buildContours_error_eq hb
            rw [hce] at he
            exact GateError.noConfusion he
      · rw [if_neg hD] at hcontra
        cases hcontra

/-- Counterexample to C8 as stated: a 2×1 table has `D = 1 < 2` columns,
yet `circular_median` raises no validation error — both validation checks
pass (the rank check sees a rank-2 array) and the call fails later with an
uncaught `IndexError` at `m[1]`. -/
theorem C8_counterexample :
    circular_median (Sum.inr [[(5 : ℚ)], [7]]) (65/100) = .error .indexError ∧
    ¬ ∃ msg, circular_median (Sum.inr [[(5 : ℚ)], [7]]) (65/100) =
      .error (.validation msg) := by
  have h : circular_median (Sum.inr [[(5 : ℚ)], [7]]) (65/100) =
      .error .indexError := by
    rw [circular_median, if_neg (by decide), if_neg (by decide)]
  refine ⟨h, ?_⟩
  rintro ⟨msg, hcontra⟩
  rw [h] at hcontra
  cases hcontra

/-- Witness for the amended C8 at concrete inputs: a rank-1 array, a
one-event table, and a valid two-event table. -/
theorem C8_validation_witness :
    circular_median (Sum.inl [1, 2, 3]) (65/100) =
      .error (.validation "must specify at least 2 dimensions (FSC and SSC)") ∧
    circular_median (Sum.inr [[(1 : ℚ), 2]]) (65/100) =
      .error (.validation "data must have more than 1 event") ∧
    circular_median (Sum.inr [[(1 : ℚ), 2], [3, 4]]) (65/100) ≠
      .error (.validation "data must have more than 1 event") := by
  have h := C8_validation (65/100) 10 ![1, 1] 1 (fun _ => [])
  exact ⟨(h.1 [1, 2, 3]).1,
    (h.2.1 [[(1 : ℚ), 2]] (by decide)).1,
    (h.2.2 [[(1 : ℚ), 2], [3, 4]] (by decide)).1 _⟩

/-! ### Claim C10 -/

/-- `density` fails with the uncaught index error when the cumulative
counts never reach the target. -/
theorem density_eq_indexError_of_none (rows : List (List ℚ)) (sigma g : ℚ)
    (traceFn : ℝ → List (List (ℚ × ℚ) × List ℤ))
    (hlen : ¬ rows.length < 2) (hD : 2 ≤ ncols rows)
    (hnone : densNidx? rows sigma g = none) :
    density (Sum.inr rows) sigma g traceFn = .error .indexError := by
  rw [density, if_neg hlen, if_pos hD, hnone]

/-- C10: on a valid table (2 events, 2 columns) whose events lie entirely
outside the binned range `[0, 1023]`, the cumulative sorted raw counts
never reach `n = ⌈0.65·2⌉ = 2`, the `np.nonzero(csvC>=n)[0][0]` read hits
an empty index array, and `density` fails with the uncaught index error —
not with a validation, numerical-stability, or algorithmic-contract
error. -/
theorem C10_out_of_range_index_error :
    density (Sum.inr exOut) 10 (65/100) (fun _ => []) = .error .indexError := by
  have hbin : binOf 2000 = none := by
    rw [binOf, if_neg]
    norm_num
  have hhist : ∀ i j, histC exOut i j = 0 := by
    intro i j
    rw [histC, List.countP_eq_zero]
    intro r hr
    have hreq : r = [2000, 2000] := by
      simp only [exOut, List.mem_cons, List.not_mem_nil, or_false] at hr
      rcases hr with rfl | rfl <;> rfl
    subst hreq
    simp [hbin]
  have hnone : densNidx? exOut 10 (65/100) = none := by
    rw [densNidx?, List.findIdx?_eq_none_iff]
    intro x hx
    have hx0 : x = 0 := by
      refine cumsum_all_zero ?_ x hx
      intro a ha
      rcases List.mem_map.mp ha with ⟨l, _, rfl⟩
      exact hhist _ _
    subst hx0
    have hn : nKeep (65/100) exOut.length = 2 := by
      rw [show exOut.length = 2 from rfl]
      exact nKeep_eq_of _ _ _ (by norm_num) (by norm_num)
    simp [hn]
  exact density_eq_indexError_of_none exOut 10 (65/100) (fun _ => [])
    (by norm_num [exOut]) (by norm_num [ncols, exOut]) hnone

/-! ### The histogram bins -/

/-- Evaluation rule for `binOf`: a value within half a unit of an integer
`k ≤ 1023` falls in bin `k`. -/
theorem binOf_eq (x : ℚ) (k : ℕ) (hk : k ≤ 1023) (h1 : (k : ℚ) - 1/2 ≤ x)
    (h2 : x < (k : ℚ) + 1/2) : binOf x = some k := by
  have hk0 : (0 : ℚ) ≤ (k : ℚ) := by positivity
  have hk1023 : (k : ℚ) ≤ 1023 := by exact_mod_cast hk
  rw [binOf, if_pos]
  · have hfl : ⌊x + 1/2⌋ = (k : ℤ) := by
      rw [Int.floor_eq_iff]
      constructor
      · push_cast
        linarith
      · push_cast
        linarith
    rw [hfl, Int.toNat_natCast]
    rw [Nat.min_eq_right hk]
  · constructor
    · linarith
    · linarith

/-! ### The Gaussian kernel -/

theorem gaussW_nonneg (sigma : ℚ) (t : ℤ) : 0 ≤ gaussW sigma t := by
  rw [gaussW]
  split_ifs
  · exact le_of_lt (Real.exp_pos _)
  · exact le_refl 0

theorem gaussW_le_one (sigma : ℚ) (t : ℤ) : gaussW sigma t ≤ 1 := by
  rw [gaussW]
  split_ifs
  · rw [Real.exp_le_one_iff]
    apply div_nonpos_of_nonpos_of_nonneg
    · simp [sq_nonneg]
    · positivity
  · norm_num

theorem gaussW_zero (sigma : ℚ) : gaussW sigma 0 = 1 := by
  rw [gaussW, if_pos (by simp)]
  norm_num

theorem gaussW_lt_one (sigma : ℚ) (hs : 0 < sigma) (t : ℤ) (ht : t ≠ 0) :
    gaussW sigma t < 1 := by
  rw [gaussW]
  split_ifs
  · rw [Real.exp_lt_one_iff]
    apply div_neg_of_neg_of_pos
    · have htr : (t : ℝ) ≠ 0 := Int.cast_ne_zero.mpr ht
      have hpos : 0 < (t : ℝ) ^ 2 := pow_pos (abs_pos.mpr htr) 2 |>.trans_eq (by rw [sq_abs])
      linarith
    · have : (0 : ℝ) < (sigma : ℝ) := by exact_mod_cast hs
      positivity
  · norm_num

theorem gaussZ_pos (sigma : ℚ) : 0 < gaussZ sigma := by
  rw [gaussZ]
  apply Finset.sum_pos'
  · intro t _
    exact gaussW_nonneg sigma t
  · refine ⟨0, ?_, ?_⟩
    · simp
    · rw [gaussW_zero]
      norm_num

theorem blurC_nonneg (data : List (List ℚ)) (sigma : ℚ) (i j : ℕ) :
    0 ≤ blurC data sigma i j := by
  rw [blurC]
  apply Finset.sum_nonneg
  intro p _
  apply Finset.sum_nonneg
  intro q _
  have hZ := le_of_lt (gaussZ_pos sigma)
  have h1 := gaussW_nonneg sigma ((i : ℤ) - p)
  have h2 := gaussW_nonneg sigma ((j : ℤ) - q)
  positivity

/-! ### Reading off the density acceptance data -/

/-- The first-reach-or-exceed property of `Nidx`: the cumulative sorted raw
counts reach `n` at position `Nidx` and at no earlier position. -/
theorem densNidx?_spec {data : List (List ℚ)} {sigma g : ℚ} {Nidx : ℕ}
    (h : densNidx? data sigma g = some Nidx) :
    Nidx < (densSidx data sigma).length ∧
    nKeep g data.length ≤
      (((densSidx data sigma).take (Nidx + 1)).map (densVC data)).sum ∧
    ∀ j < Nidx,
      (((densSidx data sigma).take (j + 1)).map (densVC data)).sum <
        nKeep g data.length := by
  rw [densNidx?] at h
  rw [List.findIdx?_eq_some_iff_getElem] at h
  obtain ⟨hlt, hp, hprev⟩ := h
  have hlen : (cumsum ((densSidx data sigma).map (densVC data))).length =
      (densSidx data sigma).length := by
    rw [cumsum_length, List.length_map]
  have hget : ∀ j (hj : j < (cumsum ((densSidx data sigma).map
      (densVC data))).length),
      (cumsum ((densSidx data sigma).map (densVC data))).get ⟨j, hj⟩ =
        (((densSidx data sigma).take (j + 1)).map (densVC data)).sum := by
    intro j hj
    rw [cumsum_get, ← List.map_take]
  refine ⟨by omega, ?_, ?_⟩
  · have := hget Nidx hlt
    rw [List.get_eq_getElem] at this
    rw [← this]
    simpa using hp
  · intro j hj
    have hjlt : j < (cumsum ((densSidx data sigma).map (densVC data))).length := by
      omega
    have hfalse := hprev j hj
    have := hget j hjlt
    rw [List.get_eq_getElem] at this
    rw [← this]
    simpa using hfalse

/-- Reading one entry of the density mask. -/
theorem densMask_getD (data : List (List ℚ)) (sigma : ℚ) (Nidx : ℕ) (k : ℕ)
    (hk : k < data.length) :
    ((densMask data sigma Nidx).getD k false = true ↔
      ∃ p ∈ densAccepted data sigma Nidx,
        (data.getD k []).getD 0 0 = (p.1 : ℚ) ∧
        (data.getD k []).getD 1 0 = (p.2 : ℚ)) := by
  have hdk : data.getD k [] = data[k] := List.getD_eq_getElem data [] hk
  rw [densMask, List.getD_eq_getElem?_getD, List.getElem?_map,
    List.getElem?_eq_getElem hk, Option.map_some', Option.getD_some,
    decide_eq_true_eq, hdk]

/-! ### The contour-assembly loop -/

/-- When every path code is recognized, the loop returns exactly the list
of vertex arrays. -/
theorem buildContours_ok (t : List (List (ℚ × ℚ) × List ℤ))
    (h : ∀ pair ∈ t, ∀ c ∈ pair.2, c = 1 ∨ c = 2) :
    buildContours t = .ok (t.map Prod.fst) := by
  induction t with
  | nil => rfl
  | cons a rest ih =>
    obtain ⟨vs, codes⟩ := a
    rw [buildContours, if_pos]
    · have hrest := ih fun pair hp => h pair (List.mem_cons_of_mem _ hp)
      simp only [hrest, List.map_cons]
    · rw [List.all_eq_true]
      intro c hc
      have := h (vs, codes) (List.mem_cons_self _ _) c hc
      rcases this with rfl | rfl <;> simp
-- continued below

/-- The loop raises the unrecognized-path-code exception iff some code
array contains a code other than `1` and `2`. -/
theorem buildContours_error_iff (t : List (List (ℚ × ℚ) × List ℤ)) :
    buildContours t = .error .contourError ↔
      ∃ pair ∈ t, ∃ c ∈ pair.2, c ≠ 1 ∧ c ≠ 2 := by
  induction t with
  | nil =>
    simp [buildContours]
  | cons a rest ih =>
    obtain ⟨vs, codes⟩ := a
    rw [buildContours]
    by_cases hc : codes.all (fun c => c == 1 || c == 2)
    · rw [if_pos hc]
      rw [List.all_eq_true] at hc
      constructor
      · intro h
        cases hb : buildContours rest with
        | ok cs =>
          rw [hb] at h
          cases h
        | error e =>
          rw [hb] at h
          cases h
          rcases ih.mp hb with ⟨pair, hpair, hcode⟩
          exact ⟨pair, List.mem_cons_of_mem _ hpair, hcode⟩
      · rintro ⟨pair, hpair, c, hcmem, hc1, hc2⟩
        rcases List.mem_cons.mp hpair with rfl | hrest
        · have := hc c hcmem
          simp at this
          rcases this with rfl | rfl
          · exact absurd rfl hc1
          · exact absurd rfl hc2
        · have herr : buildContours rest = .error .contourError :=
            ih.mpr ⟨pair, hrest, c, hcmem, hc1, hc2⟩
          rw [herr]
    · rw [if_neg hc]
      constructor
      · intro _
        rw [List.all_eq_true] at hc
        push_neg at hc
        obtain ⟨c, hcmem, hcbad⟩ := hc
        refine ⟨(vs, codes), List.mem_cons_self _ _, c, hcmem, ?_⟩
        constructor <;> intro hccontra <;> subst hccontra <;> simp at hcbad
      · intro _
        rfl

/-! ### A single-bin histogram pins down the density ranking -/

/-- With all events in bin `(3, 0)`, the blurred field is a translated
product kernel. -/
theorem blur_single_bin (data : List (List ℚ))
    (hhist : ∀ i j, histC data i j = if i = 3 ∧ j = 0 then 2 else 0)
    (i j : ℕ) :
    blurC data 10 i j =
      2 * (gaussW 10 ((i : ℤ) - 3) / gaussZ 10) *
        (gaussW 10 (j : ℤ) / gaussZ 10) := by
  rw [blurC]
  rw [Finset.sum_eq_single_of_mem 3 (Finset.mem_range.mpr (by norm_num))
    (fun p _ hp => Finset.sum_eq_zero (fun q _ => by
      rw [hhist, if_neg (fun h => hp h.1)]
      norm_num))]
  rw [Finset.sum_eq_single_of_mem 0 (Finset.mem_range.mpr (by norm_num))
    (fun q _ hq => by
      rw [hhist, if_neg (fun h => hq h.2)]
      norm_num)]
  rw [hhist, if_pos ⟨rfl, rfl⟩]
  push_cast
  ring_nf

/-- The bin `(3, 0)` (linear index 3072) has strictly the largest smoothed
probability. -/
theorem densVD_single_bin_max (data : List (List ℚ))
    (hhist : ∀ i j, histC data i j = if i = 3 ∧ j = 0 then 2 else 0) :
    ∀ l, l < 1024 * 1024 → l ≠ 3072 →
      densVD data 10 l < densVD data 10 3072 := by
  have hZ := gaussZ_pos 10
  have hT : 0 < probT data 10 := by
    rw [probT]
    have hpos : 0 < blurC data 10 3 0 := by
      rw [blur_single_bin data hhist]
      rw [show ((3 : ℕ) : ℤ) - 3 = 0 from by norm_num, gaussW_zero,
        show ((0 : ℕ) : ℤ) = 0 from rfl, gaussW_zero]
      positivity
    have h1 : ∀ i ∈ Finset.range 1024,
        0 ≤ ∑ j in Finset.range 1024, blurC data 10 i j :=
      fun i _ => Finset.sum_nonneg (fun j _ => blurC_nonneg data 10 i j)
    have h2 : (∑ j in Finset.range 1024, blurC data 10 3 j) ≤
        ∑ i in Finset.range 1024, ∑ j in Finset.range 1024, blurC data 10 i j :=
      Finset.single_le_sum h1 (Finset.mem_range.mpr (by norm_num))
    have h3 : blurC data 10 3 0 ≤ ∑ j in Finset.range 1024, blurC data 10 3 j :=
      Finset.single_le_sum (fun j _ => blurC_nonneg data 10 3 j)
        (Finset.mem_range.mpr (by norm_num))
    linarith
  intro l hl hne
  rw [densVD, densVD, probD, probD]
  rw [show (3072 : ℕ) / 1024 = 3 from by norm_num,
    show (3072 : ℕ) % 1024 = 0 from by norm_num]
  rw [div_lt_div_iff_of_pos_right hT]
  rw [blur_single_bin data hhist, blur_single_bin data hhist]
  rw [show ((3 : ℕ) : ℤ) - 3 = 0 from by norm_num, gaussW_zero,
    show ((0 : ℕ) : ℤ) = 0 from rfl, gaussW_zero]
  have hij : ¬(l / 1024 = 3 ∧ l % 1024 = 0) := by
    rintro ⟨h1, h2⟩
    exact hne (by omega)
  have hkey : gaussW 10 ((↑(l / 1024) : ℤ) - 3) * gaussW 10 (↑(l % 1024) : ℤ) < 1 := by
    by_cases h3 : l / 1024 = 3
    · have hj0 : l % 1024 ≠ 0 := fun h => hij ⟨h3, h⟩
      rw [h3, show ((3 : ℕ) : ℤ) - 3 = 0 from by norm_num, gaussW_zero,
        one_mul]
      exact gaussW_lt_one 10 (by norm_num) _ (by exact_mod_cast hj0)
    · have hne3 : ((↑(l / 1024) : ℤ) - 3) ≠ 0 := by
        intro h
        apply h3
        omega
      calc gaussW 10 ((↑(l / 1024) : ℤ) - 3) * gaussW 10 (↑(l % 1024) : ℤ) ≤
            gaussW 10 ((↑(l / 1024) : ℤ) - 3) * 1 :=
              mul_le_mul_of_nonneg_left (gaussW_le_one _ _) (gaussW_nonneg _ _)
        _ = gaussW 10 ((↑(l / 1024) : ℤ) - 3) := mul_one _
        _ < 1 := gaussW_lt_one 10 (by norm_num) _ hne3
  have hZinv : 0 < (gaussZ 10)⁻¹ := inv_pos.mpr hZ
  have hA := gaussW_nonneg 10 ((↑(l / 1024) : ℤ) - 3)
  have hB := gaussW_nonneg 10 (↑(l % 1024) : ℤ)
  simp only [div_eq_mul_inv]
  nlinarith [mul_pos (mul_pos hZinv hZinv) (sub_pos.mpr hkey)]

theorem densSidx_single_bin_head (data : List (List ℚ))
    (hhist : ∀ i j, histC data i j = if i = 3 ∧ j = 0 then 2 else 0) :
    (densSidx data 10).head? = some 3072 := by
  apply head?_eq_of_pairwise_first (densSidx_pairwise data 10)
  · exact (densSidx_mem data 10 3072).mpr (by norm_num)
  · intro y hy hyne
    have hdom := densVD_single_bin_max data hhist y
      ((densSidx_mem data 10 y).mp hy) hyne
    simp only [lexGe]
    rintro (h | ⟨h, _⟩)
    · exact absurd hdom (lt_asymm h)
    · rw [h] at hdom
      exact lt_irrefl _ hdom

theorem densSidx_single_bin_cons (data : List (List ℚ))
    (hhist : ∀ i j, histC data i j = if i = 3 ∧ j = 0 then 2 else 0) :
    ∃ tl, densSidx data 10 = 3072 :: tl := by
  have h := densSidx_single_bin_head data hhist
  cases hL : densSidx data 10 with
  | nil => rw [hL] at h; cases h
  | cons a tl =>
    rw [hL] at h
    injection h with h
    exact ⟨tl, by rw [h]⟩

theorem densNidx_single_bin (data : List (List ℚ)) (g : ℚ)
    (hhist : ∀ i j, histC data i j = if i = 3 ∧ j = 0 then 2 else 0)
    (hn : nKeep g data.length = 2) :
    densNidx? data 10 g = some 0 := by
  obtain ⟨tl, htl⟩ := densSidx_single_bin_cons data hhist
  rw [densNidx?, htl, List.map_cons]
  have hvc : densVC data 3072 = 2 := by
    rw [densVC]
    norm_num [hhist]
  rw [hvc, cumsum, List.findIdx?_cons]
  rw [hn]
  norm_num

theorem densAccepted_single_bin (data : List (List ℚ))
    (hhist : ∀ i j, histC data i j = if i = 3 ∧ j = 0 then 2 else 0) :
    densAccepted data 10 0 = [(3, 0)] := by
  obtain ⟨tl, htl⟩ := densSidx_single_bin_cons data hhist
  rw [densAccepted, htl]
  rfl

/-! ### The two concrete density tables -/

theorem exDens_hist : ∀ i j, histC exDens i j =
    if i = 3 ∧ j = 0 then 2 else 0 := by
  have h3 : binOf 3 = some 3 :=
    binOf_eq 3 3 (by norm_num) (by norm_num) (by norm_num)
  have h27 : binOf (27/10) = some 3 :=
    binOf_eq (27/10) 3 (by norm_num) (by norm_num) (by norm_num)
  have h0 : binOf 0 = some 0 :=
    binOf_eq 0 0 (by norm_num) (by norm_num) (by norm_num)
  intro i j
  by_cases hij : i = 3 ∧ j = 0
  · obtain ⟨rfl, rfl⟩ := hij
    rw [if_pos ⟨rfl, rfl⟩, histC]
    simp only [exDens, List.countP_cons, List.countP_nil]
    norm_num [h3, h27, h0]
  · rw [if_neg hij, histC]
    simp only [exDens, List.countP_cons, List.countP_nil]
    have hij' : ¬(3 = i ∧ 0 = j) := fun h => hij ⟨h.1.symm, h.2.symm⟩
    norm_num [h3, h27, h0, hij']

theorem exInt_hist : ∀ i j, histC exInt i j =
    if i = 3 ∧ j = 0 then 2 else 0 := by
  have h3 : binOf 3 = some 3 :=
    binOf_eq 3 3 (by norm_num) (by norm_num) (by norm_num)
  have h0 : binOf 0 = some 0 :=
    binOf_eq 0 0 (by norm_num) (by norm_num) (by norm_num)
  intro i j
  by_cases hij : i = 3 ∧ j = 0
  · obtain ⟨rfl, rfl⟩ := hij
    rw [if_pos ⟨rfl, rfl⟩, histC]
    simp only [exInt, List.countP_cons, List.countP_nil]
    norm_num [h3, h0]
  · rw [if_neg hij, histC]
    simp only [exInt, List.countP_cons, List.countP_nil]
    have hij' : ¬(3 = i ∧ 0 = j) := fun h => hij ⟨h.1.symm, h.2.symm⟩
    norm_num [h3, h0, hij']

theorem exDens_nKeep : nKeep (65/100) exDens.length = 2 := by
  rw [show exDens.length = 2 from rfl]
  exact nKeep_eq_of _ _ _ (by norm_num) (by norm_num)

theorem exInt_nKeep : nKeep (65/100) exInt.length = 2 := by
  rw [show exInt.length = 2 from rfl]
  exact nKeep_eq_of _ _ _ (by norm_num) (by norm_num)

theorem exDens_Nidx : densNidx? exDens 10 (65/100) = some 0 :=
  densNidx_single_bin exDens (65/100) exDens_hist exDens_nKeep

theorem exInt_Nidx : densNidx? exInt 10 (65/100) = some 0 :=
  densNidx_single_bin exInt (65/100) exInt_hist exInt_nKeep

theorem exDens_mask : densMask exDens 10 0 = [true, false] := by
  simp only [densMask, densAccepted_single_bin exDens exDens_hist]
  norm_num [exDens]

theorem exInt_mask : densMask exInt 10 0 = [true, true] := by
  simp only [densMask, densAccepted_single_bin exInt exInt_hist]
  norm_num [exInt]

/-- `density` returns the mask and assembled contours when the threshold is
reached and all path codes are recognized. -/
theorem density_eq_ok (rows : List (List ℚ)) (sigma g : ℚ)
    (traceFn : ℝ → List (List (ℚ × ℚ) × List ℤ)) (Nidx : ℕ)
    (cs : List (List (ℚ × ℚ)))
    (hlen : ¬ rows.length < 2) (hD : 2 ≤ ncols rows)
    (hN : densNidx? rows sigma g = some Nidx)
    (hok : buildContours (traceFn (densVD rows sigma
      ((densSidx rows sigma).getD Nidx 0))) = .ok cs) :
    density (Sum.inr rows) sigma g traceFn = .ok (densMask rows sigma Nidx, cs) := by
  rw [density, if_neg hlen, if_pos hD]
  simp only [hN, hok]

/-! ### Claim C1 -/

/-- C1 (amended): in `density` the grid bins are ranked by descending
smoothed probability with ties broken by ascending linear bin index; bins
are accepted in that order until the cumulative unsmoothed counts first
reach or exceed `n = ⌈g*N⌉`; and an event is marked `True` exactly when
its raw (channel-1, channel-2) value pair equals the index pair of an
accepted bin — which coincides with the binned-index test only for
integer-valued in-range events. -/
theorem C1_density_ranking (data : List (List ℚ)) (sigma g : ℚ) (Nidx : ℕ)
    (hN : densNidx? data sigma g = some Nidx) :
    ((densSidx data sigma).Perm (List.range (1024 * 1024)) ∧
     (densSidx data sigma).Pairwise (fun a b =>
        densVD data sigma b < densVD data sigma a ∨
        (densVD data sigma a = densVD data sigma b ∧ a < b))) ∧
    (nKeep g data.length ≤
       (((densSidx data sigma).take (Nidx + 1)).map (densVC data)).sum ∧
     ∀ j < Nidx,
       (((densSidx data sigma).take (j + 1)).map (densVC data)).sum <
         nKeep g data.length) ∧
    (∀ k < data.length,
      ((densMask data sigma Nidx).getD k false = true ↔
        ∃ p ∈ densAccepted data sigma Nidx,
          (data.getD k []).getD 0 0 = (p.1 : ℚ) ∧
          (data.getD k []).getD 1 0 = (p.2 : ℚ))) := by
  obtain ⟨hlt, hreach, hmin⟩ := densNidx?_spec hN
  refine ⟨⟨densSidx_perm data sigma, ?_⟩, ⟨hreach, hmin⟩, ?_⟩
  · have hpw := densSidx_pairwise data sigma
    have hnd : (densSidx data sigma).Nodup := densSidx_nodup data sigma
    have hcomb := hpw.and hnd
    refine hcomb.imp ?_
    rintro a b ⟨hge, hne⟩
    simp only [lexGe] at hge
    rcases hge with h | ⟨h, hle⟩
    · exact Or.inl h
    · exact Or.inr ⟨h, lt_of_le_of_ne hle hne⟩
  · intro k hk
    exact densMask_getD data sigma Nidx k hk

/-- Counterexample to C1 as stated: in the two-event table `exDens` the
second event `(27/10, 0)` falls in histogram bin `(3, 0)`, that bin is the
(only) accepted bin, yet the event is marked `False` — the code compares
the raw value pair with the integer index pair, not the event's bin. -/
theorem C1_counterexample :
    densNidx? exDens 10 (65/100) = some 0 ∧
    densAccepted exDens 10 0 = [(3, 0)] ∧
    binOf ((exDens.getD 1 []).getD 0 0) = some 3 ∧
    binOf ((exDens.getD 1 []).getD 1 0) = some 0 ∧
    densMask exDens 10 0 = [true, false] := by
  refine ⟨exDens_Nidx, densAccepted_single_bin exDens exDens_hist, ?_, ?_,
    exDens_mask⟩
  · rw [show (exDens.getD 1 []).getD 0 0 = 27/10 from rfl]
    exact binOf_eq (27/10) 3 (by norm_num) (by norm_num) (by norm_num)
  · rw [show (exDens.getD 1 []).getD 1 0 = 0 from rfl]
    exact binOf_eq 0 0 (by norm_num) (by norm_num) (by norm_num)

/-- Witness for the amended C1 at the concrete table `exDens`. -/
theorem C1_density_ranking_witness :
    densNidx? exDens 10 (65/100) = some 0 ∧
    nKeep (65/100) exDens.length ≤
      (((densSidx exDens 10).take (0 + 1)).map (densVC exDens)).sum ∧
    ((densMask exDens 10 0).getD 1 false = true ↔
      ∃ p ∈ densAccepted exDens 10 0,
        (exDens.getD 1 []).getD 0 0 = (p.1 : ℚ) ∧
        (exDens.getD 1 []).getD 1 0 = (p.2 : ℚ)) :=
  ⟨exDens_Nidx,
   (C1_density_ranking exDens 10 (65/100) 0 exDens_Nidx).2.1.1,
   (C1_density_ranking exDens 10 (65/100) 0 exDens_Nidx).2.2 1 (by decide)⟩

/-! ### Claim C9 -/

/-- C9: `density` raises the fatal unrecognized-path-code error iff the
contour-trace output contains a path code other than `1` (MOVETO) and `2`
(LINETO); when all codes are recognized, the traced vertex arrays are
returned as the contour list. -/
theorem C9_contour_codes (data : List (List ℚ)) (sigma g : ℚ)
    (traceFn : ℝ → List (List (ℚ × ℚ) × List ℤ)) (Nidx : ℕ)
    (hlen : ¬ data.length < 2) (hD : 2 ≤ ncols data)
    (hN : densNidx? data sigma g = some Nidx) :
    (density (Sum.inr data) sigma g traceFn = .error .contourError ↔
      ∃ pair ∈ traceFn (densVD data sigma ((densSidx data sigma).getD Nidx 0)),
        ∃ c ∈ pair.2, c ≠ 1 ∧ c ≠ 2) ∧
    ((∀ pair ∈ traceFn (densVD data sigma ((densSidx data sigma).getD Nidx 0)),
        ∀ c ∈ pair.2, c = 1 ∨ c = 2) →
      density (Sum.inr data) sigma g traceFn =
        .ok (densMask data sigma Nidx,
          (traceFn (densVD data sigma
            ((densSidx data sigma).getD Nidx 0))).map Prod.fst)) := by
  constructor
  · rw [← buildContours_error_iff]
    constructor
    · intro h
      cases hb : buildContours (traceFn (densVD data sigma
          ((densSidx data sigma).getD Nidx 0))) with
      | ok cs =>
        have hok := density_eq_ok data sigma g traceFn Nidx cs hlen hD hN hb
        rw [hok] at h
        cases h
      | error e =>
        exact congrArg Except.error (buildContours_error_eq hb)
    · intro h
      rw [density, if_neg hlen, if_pos hD]
      simp only [hN, h]
  · intro hcodes
    exact density_eq_ok data sigma g traceFn Nidx _ hlen hD hN
      (buildContours_ok _ hcodes)

/-- Witness for C9 at the concrete table `exDens`: a trace output with the
unknown code `3` makes `density` raise the contour error, and an empty
trace output makes it return normally. -/
theorem C9_contour_codes_witness :
    density (Sum.inr exDens) 10 (65/100) (fun _ => [([(0, 0)], [3])]) =
      .error .contourError ∧
    density (Sum.inr exDens) 10 (65/100) (fun _ => []) =
      .ok (densMask exDens 10 0, []) := by
  constructor
  · exact (C9_contour_codes exDens 10 (65/100) (fun _ => [([(0, 0)], [3])]) 0
      (by decide) (by decide) exDens_Nidx).1.mpr
      ⟨([(0, 0)], [3]), List.mem_cons_self _ _, 3, List.mem_cons_self _ _,
        by norm_num, by norm_num⟩
  · exact (C9_contour_codes exDens 10 (65/100) (fun _ => []) 0
      (by decide) (by decide) exDens_Nidx).2 (by simp)

/-! ### Claim C7 -/

theorem count_int_mask (data : List (List ℚ)) (acc : List (ℕ × ℕ))
    (haccnd : acc.Nodup)
    (hint : ∀ r ∈ data, ∃ a b : ℕ, a ≤ 1023 ∧ b ≤ 1023 ∧
      r.getD 0 0 = (a : ℚ) ∧ r.getD 1 0 = (b : ℚ)) :
    (data.map (fun r => decide (∃ p ∈ acc,
        r.getD 0 0 = (p.1 : ℚ) ∧ r.getD 1 0 = (p.2 : ℚ)))).count true =
      (acc.map (fun p => histC data p.1 p.2)).sum := by
  have hbinint : ∀ a : ℕ, a ≤ 1023 → binOf (a : ℚ) = some a := fun a ha =>
    binOf_eq _ a ha (by norm_num) (by norm_num)
  have hfr : ∀ r ∈ data, ∃ a b : ℕ, a ≤ 1023 ∧ b ≤ 1023 ∧
      r.getD 0 0 = (a : ℚ) ∧ r.getD 1 0 = (b : ℚ) ∧
      ((r.getD 0 0).num.toNat, (r.getD 1 0).num.toNat) = (a, b) := by
    intro r hr
    obtain ⟨a, b, ha, hb, h1, h2⟩ := hint r hr
    refine ⟨a, b, ha, hb, h1, h2, ?_⟩
    rw [h1, h2]
    simp [Rat.num_natCast]
  have hmapeq : acc.map (fun p => histC data p.1 p.2) =
      acc.map (fun p => data.countP (fun r =>
        decide ((((r.getD 0 0).num.toNat, (r.getD 1 0).num.toNat) : ℕ × ℕ)
          = p))) := by
    apply List.map_congr_left
    intro p _
    rw [histC]
    apply List.countP_congr
    intro r hr
    obtain ⟨a, b, ha, hb, h1, h2, hf⟩ := hfr r hr
    rw [h1, h2, hbinint a ha, hbinint b hb]
    simp [Prod.ext_iff, Rat.num_natCast]
  have hsum := sum_countP_eq_countP_mem acc haccnd data
    (fun r => ((r.getD 0 0).num.toNat, (r.getD 1 0).num.toNat))
  have hcount : (data.map (fun r => decide (∃ p ∈ acc,
      r.getD 0 0 = (p.1 : ℚ) ∧ r.getD 1 0 = (p.2 : ℚ)))).count true =
      data.countP (fun r => decide ((((r.getD 0 0).num.toNat,
        (r.getD 1 0).num.toNat) : ℕ × ℕ) ∈ acc)) := by
    rw [List.count_eq_countP, List.countP_map]
    apply List.countP_congr
    intro r hr
    obtain ⟨a, b, ha, hb, h1, h2, hf⟩ := hfr r hr
    simp only [Function.comp_apply, beq_iff_eq, decide_eq_true_eq]
    rw [h1, h2]
    have hab : (((a : ℚ)).num.toNat, (((b : ℚ)).num.toNat)) = (a, b) := by
      simp [Rat.num_natCast]
    rw [hab]
    constructor
    · rintro ⟨p, hp, e1, e2⟩
      have e1' : p.1 = a := by exact_mod_cast e1.symm
      have e2' : p.2 = b := by exact_mod_cast e2.symm
      have hpab : (a, b) = p := by rw [← e1', ← e2']
      rw [hpab]
      exact hp
    · intro hmem
      exact ⟨(a, b), hmem, rfl, rfl⟩
  rw [hcount, hmapeq, hsum]
  exact List.countP_congr (fun r _ => by simp only [decide_eq_true_eq])

/-- C7 (amended): whenever `density` reaches its acceptance stage, every
event marked `True` has both channel values within `[0, 1023]`; and if in
addition every event is integer-valued in that range, at least
`n = ⌈g*N⌉` mask entries are `True`.  (Without integrality the lower
bound can fail, see the counterexample.) -/
theorem C7_mask_bounds (data : List (List ℚ)) (sigma g : ℚ) (Nidx : ℕ)
    (hN : densNidx? data sigma g = some Nidx) :
    (∀ k < data.length, (densMask data sigma Nidx).getD k false = true →
      0 ≤ (data.getD k []).getD 0 0 ∧ (data.getD k []).getD 0 0 ≤ 1023 ∧
      0 ≤ (data.getD k []).getD 1 0 ∧ (data.getD k []).getD 1 0 ≤ 1023) ∧
    ((∀ r ∈ data, ∃ a b : ℕ, a ≤ 1023 ∧ b ≤ 1023 ∧
        r.getD 0 0 = (a : ℚ) ∧ r.getD 1 0 = (b : ℚ)) →
      nKeep g data.length ≤ (densMask data sigma Nidx).count true) := by
  have haccmem : ∀ p ∈ densAccepted data sigma Nidx,
      p.1 ≤ 1023 ∧ p.2 ≤ 1023 := by
    intro p hp
    rw [densAccepted] at hp
    rcases List.mem_map.mp hp with ⟨l, hl, rfl⟩
    have hl' : l < 1024 * 1024 :=
      (densSidx_mem data sigma l).mp (List.mem_of_mem_take hl)
    exact ⟨by omega, by omega⟩
  constructor
  · intro k hk hmask
    rw [densMask_getD data sigma Nidx k hk] at hmask
    obtain ⟨p, hp, h1, h2⟩ := hmask
    obtain ⟨hp1, hp2⟩ := haccmem p hp
    refine ⟨by rw [h1]; positivity, ?_, by rw [h2]; positivity, ?_⟩
    · rw [h1]; exact_mod_cast hp1
    · rw [h2]; exact_mod_cast hp2
  · intro hint
    obtain ⟨hlt, hreach, hmin⟩ := densNidx?_spec hN
    have hPnd : ((densSidx data sigma).take (Nidx + 1)).Nodup :=
      List.Nodup.sublist (List.take_sublist _ _) (densSidx_nodup data sigma)
    have haccnd : (densAccepted data sigma Nidx).Nodup := by
      rw [densAccepted]
      refine List.Nodup.map_on ?_ hPnd
      intro x hx y hy hxy
      have h1 : x / 1024 = y / 1024 := congrArg Prod.fst hxy
      have h2 : x % 1024 = y % 1024 := congrArg Prod.snd hxy
      omega
    rw [densMask,
      count_int_mask data (densAccepted data sigma Nidx) haccnd hint,
      densAccepted, List.map_map]
    have hvc : ((densSidx data sigma).take (Nidx + 1)).map
        ((fun p : ℕ × ℕ => histC data p.1 p.2) ∘
          (fun l => (l / 1024, l % 1024))) =
        ((densSidx data sigma).take (Nidx + 1)).map (densVC data) :=
      List.map_congr_left (fun l _ => rfl)
    rw [hvc]
    exact hreach

/-- Counterexample to C7 as stated: on the two-event table `exDens` (whose
second event has the non-integer value `27/10`), `density` succeeds with
`n = ⌈0.65*2⌉ = 2` yet returns a mask with a single `True` entry — fewer
than `n`. -/
theorem C7_counterexample :
    density (Sum.inr exDens) 10 (65/100) (fun _ => []) =
      .ok ([true, false], []) ∧
    nKeep (65/100) exDens.length = 2 ∧
    [true, false].count true = 1 := by
  refine ⟨?_, exDens_nKeep, by decide⟩
  have h := density_eq_ok exDens 10 (65/100) (fun _ => []) 0 []
    (by decide) (by decide) exDens_Nidx rfl
  rw [h, exDens_mask]

/-- Witness for the amended C7 at the integer-valued table `exInt`. -/
theorem C7_mask_bounds_witness :
    densNidx? exInt 10 (65/100) = some 0 ∧
    nKeep (65/100) exInt.length ≤ (densMask exInt 10 0).count true := by
  refine ⟨exInt_Nidx, (C7_mask_bounds exInt 10 (65/100) 0 exInt_Nidx).2 ?_⟩
  intro r hr
  have hr' : r = [3, 0] := by
    simp only [exInt, List.mem_cons, List.not_mem_nil, or_false] at hr
    rcases hr with rfl | rfl <;> rfl
  subst hr'
  exact ⟨3, 0, by norm_num, by norm_num, by norm_num, by norm_num⟩
